import Mathlib

/-!
# Verification of the pig-chess-engine search core

A shallow embedding, in Lean 4, of the search core of the pig chess engine
(`src/search.cpp` and the negamax search in `src/search.hpp`), together with
theorems settling the specification claims about it.

The engine delegates move generation, make/unmake, Zobrist hashing, check and
game-over detection to an external chess library (`chess.hpp`, not part of this
repository), and static evaluation to an evaluation component whose helpers
(`evaluate`, `gamePhase`, `isEndGame`, `manhattanDistance`, ...) are likewise
external to the search core.  Those collaborators are modelled as an abstract
`Oracle` of operations over opaque `Board` and `Move` types; the search-core
functions themselves are translated from the C++ sources.

Two generations of the search coexist in the sources:
* `search.cpp` — white-relative minimax `alphaBeta`/`quiescence` with two
  transposition maps (`lowerBoundTable` for white nodes, `upperBoundTable` for
  black nodes), razoring at depth ≤ 2 and null-move pruning with `R = 2`.
  Embedded below as `alphaBeta1` / `quiescence1` / `findBestMove1`.
* the negamax search in `search.hpp` — side-to-move-relative `alphaBeta` with a
  single `transpositionTable`, a hash-move table, futility pruning, razoring,
  null-move reduction `3 + depth/4`, late-move reduction and extensions.
  Embedded below as `alphaBeta2` / `quiescence2`.

C++ `int` values are modelled as `Int`.  The two recursions on `depth` are
embedded with an explicit fuel parameter bounding the recursion depth (the C++
recursion terminates because `depth` strictly decreases at every recursive
call); quiescence depth is a `Nat`, matching the non-negative quiescence depths
the engine ever passes.
-/

namespace PigChess

/-- Game termination reasons, as returned by `chess::Board::isGameOver().first`
(external library): `NONE` means the game goes on; every reason other than
`CHECKMATE` is a draw (stalemate, fifty-move rule, threefold repetition,
insufficient material). -/
inductive GameResultReason where
  | NONE
  | CHECKMATE
  | STALEMATE
  | INSUFFICIENT_MATERIAL
  | FIFTY_MOVE_RULE
  | THREEFOLD_REPETITION
deriving DecidableEq

/-- Chess piece kinds, as exposed by the external library's `Piece::type()`. -/
inductive PieceType where
  | NONE
  | PAWN
  | KNIGHT
  | BISHOP
  | ROOK
  | QUEEN
  | KING
deriving DecidableEq

/-- `const int INF = 100000;` from `search.hpp`. -/
def INF : Int := 100000

/-- The `pieceValues` table of the search core (`search.cpp:40`):
no piece 0, pawn 100, knight 320, bishop 330, rook 500, queen 900, king 20000. -/
def pieceValues : PieceType → Int
  | .NONE => 0
  | .PAWN => 100
  | .KNIGHT => 320
  | .BISHOP => 330
  | .ROOK => 500
  | .QUEEN => 900
  | .KING => 20000

/-- The external collaborators of the search core, over opaque board and move
types `B` and `M`: the move-generation library (`chess.hpp`) and the evaluation
component.  Each field corresponds to one operation the search core calls.
`lmrR` abstracts the floating-point reduction amount
`1 + 0.5*log2(depth) + 0.5*log2(i)` of `depthReduction` (`search.cpp:142`),
which involves `double` arithmetic; `mateThreatMove` and `promotionThreatMove`
wrap the helpers of `search.hpp`, whose bodies are built from evaluation-library
primitives (`manhattanDistance`, `isPassedPawn`, piece bitboards) that are not
part of the search core.  `timeUp` models the wall-clock budget check performed
at the end of a root depth iteration. -/
structure Oracle (B M : Type) where
  sideWhite : B → Bool
  isGameOver : B → GameResultReason
  hash : B → Nat
  legalMoves : B → List M
  legalCaptures : B → List M
  makeMove : B → M → B
  unmakeMove : B → M → B
  makeNullMove : B → B
  unmakeNullMove : B → B
  inCheck : B → Bool
  isCapture : B → M → Bool
  evaluate : B → Int
  isEndGame : B → Bool
  gamePhase : B → Int
  fromIdx : M → Nat
  toIdx : M → Nat
  pieceTypeAt : B → Nat → PieceType
  isPromotion : M → Bool
  isQueenPromotion : M → Bool
  knightAttackCount : B → M → Nat
  bishopAttackCount : B → M → Nat
  rookAttackCount : B → M → Nat
  lmrR : Int → Nat → Int
  mateThreatMove : B → M → Bool
  promotionThreatMove : B → M → Bool
  nullMove : M
  timeUp : Int → Bool

/-! ## Transposition tables

`search.cpp` keeps `std::map<uint64_t, std::pair<int,int>>` tables mapping a
position hash to an `(eval, depth)` pair.  A table is modelled as an
association list; `ttStore` is `table[hash] = {eval, depth}` (insert or
replace), `transTableLookUp` is the probe of `search.cpp:51`. -/

abbrev TransTable := List (Nat × Int × Int)

/-- `table.find(hash)`: the stored `(eval, depth)` pair, if any. -/
def ttFind (t : TransTable) (h : Nat) : Option (Int × Int) :=
  match t.find? (fun e => e.1 == h) with
  | some e => some e.2
  | none => none

/-- `transTableLookUp` (`search.cpp:51`): the probe succeeds — returning the
stored eval — iff the hash is present and the stored depth is ≥ the query
depth. -/
def transTableLookUp (t : TransTable) (h : Nat) (depth : Int) : Option Int :=
  match ttFind t h with
  | some ed => if ed.2 ≥ depth then some ed.1 else none
  | none => none

/-- `table[hash] = {eval, depth}`: `std::map::operator[]` assignment replaces
an existing binding for `hash`, otherwise inserts a new one. -/
def ttStore (t : TransTable) (h : Nat) (e d : Int) : TransTable :=
  if t.any (fun x => x.1 == h) then
    t.map (fun x => if x.1 == h then (h, e, d) else x)
  else
    (h, e, d) :: t

/-- A sequence of stores applied left to right. -/
def ttStoreMany (t : TransTable) : List (Nat × Int × Int) → TransTable
  | [] => t
  | (h, e, d) :: rest => ttStoreMany (ttStore t h e d) rest

theorem find_map_store_self (h : Nat) (e d : Int) :
    ∀ t : TransTable, t.any (fun x => x.1 == h) = true →
      (t.map (fun x => if x.1 == h then (h, e, d) else x)).find?
        (fun x => x.1 == h) = some (h, e, d)
  | [], hany => by simp at hany
  | x :: xs, hany => by
    by_cases hx : x.1 = h
    · have hx' : (x.1 == h) = true := by simp [hx]
      simp only [List.map_cons, hx', if_true]
      rw [List.find?_cons_of_pos _ (by simp)]
    · have hx' : (x.1 == h) = false := by simp [hx]
      have hany' : xs.any (fun x => x.1 == h) = true := by
        simpa [List.any_cons, hx'] using hany
      have ih := find_map_store_self h e d xs hany'
      simp only [List.map_cons, hx', if_false]
      rw [List.find?_cons_of_neg _ (by simp [hx])]
      exact ih

theorem find_map_store_other (h h2 : Nat) (e d : Int) (hne : h2 ≠ h) :
    ∀ t : TransTable,
      (t.map (fun x => if x.1 == h2 then (h2, e, d) else x)).find?
        (fun x => x.1 == h) = t.find? (fun x => x.1 == h)
  | [] => by simp
  | x :: xs => by
    have ih := find_map_store_other h h2 e d hne xs
    by_cases hx : x.1 = h2
    · have hx' : (x.1 == h2) = true := by simp [hx]
      have hxh : (x.1 == h) = false := by
        simp only [beq_eq_false_iff_ne, ne_eq]
        intro hcon; exact hne (by rw [← hx, hcon])
      simp only [List.map_cons, hx', if_true]
      rw [List.find?_cons_of_neg _ (by simp [hne]),
          List.find?_cons_of_neg _ (by simp [beq_eq_false_iff_ne.mp hxh])]
      exact ih
    · have hx' : (x.1 == h2) = false := by simp [hx]
      simp only [List.map_cons, hx', if_false]
      by_cases hxh : x.1 = h
      · rw [List.find?_cons_of_pos _ (by simp [hxh]),
            List.find?_cons_of_pos _ (by simp [hxh])]
        simp [hx']
      · rw [List.find?_cons_of_neg _ (by simp [hxh]),
            List.find?_cons_of_neg _ (by simp [hxh])]
        exact ih

theorem ttFind_ttStore_self (t : TransTable) (h : Nat) (e d : Int) :
    ttFind (ttStore t h e d) h = some (e, d) := by
  unfold ttStore
  by_cases hany : t.any (fun x => x.1 == h)
  · simp only [hany, if_true, ttFind, find_map_store_self h e d t hany]
  · simp only [Bool.not_eq_true] at hany
    simp only [hany, Bool.false_eq_true, if_false, ttFind]
    rw [List.find?_cons_of_pos _ (by simp)]

theorem ttFind_ttStore_other (t : TransTable) (h h2 : Nat) (e d : Int)
    (hne : h2 ≠ h) : ttFind (ttStore t h2 e d) h = ttFind t h := by
  unfold ttStore
  by_cases hany : t.any (fun x => x.1 == h2)
  · simp only [hany, if_true, ttFind, find_map_store_other h h2 e d hne t]
  · simp only [Bool.not_eq_true] at hany
    simp only [hany, Bool.false_eq_true, if_false, ttFind]
    rw [List.find?_cons_of_neg _ (by simp [hne])]

theorem transTableLookUp_ttStore_self (t : TransTable) (h : Nat) (e d q : Int)
    (hq : q ≤ d) : transTableLookUp (ttStore t h e d) h q = some e := by
  unfold transTableLookUp
  rw [ttFind_ttStore_self]
  simp [hq]

theorem transTableLookUp_ttStoreMany (h : Nat) (q : Int) :
    ∀ (others : List (Nat × Int × Int)) (t : TransTable),
      (∀ s ∈ others, s.1 ≠ h) →
      transTableLookUp (ttStoreMany t others) h q = transTableLookUp t h q
  | [], t, _ => rfl
  | (h2, e2, d2) :: rest, t, hs => by
    have hne : h2 ≠ h := hs (h2, e2, d2) (List.mem_cons_self _ _)
    have ih := transTableLookUp_ttStoreMany h q rest (ttStore t h2 e2 d2)
      (fun s hsmem => hs s (List.mem_cons_of_mem _ hsmem))
    unfold ttStoreMany
    rw [ih]
    unfold transTableLookUp
    rw [ttFind_ttStore_other t h h2 e2 d2 hne]

/-- C7: single-threaded store/probe round trip.  After `table[hash] = {score, d}`
(`ttStore`), any later probe `transTableLookUp` of the same hash at query depth
`q ≤ d` succeeds and returns exactly the stored score, provided every
intervening store went to a different hash and the table was not cleared. -/
theorem transTable_store_probe_roundtrip (t : TransTable) (h : Nat)
    (score d q : Int) (others : List (Nat × Int × Int))
    (hq : q ≤ d) (hothers : ∀ s ∈ others, s.1 ≠ h) :
    transTableLookUp (ttStoreMany (ttStore t h score d) others) h q
      = some score := by
  rw [transTableLookUp_ttStoreMany h q others (ttStore t h score d) hothers]
  exact transTableLookUp_ttStore_self t h score d q hq

/-- Witness for `transTable_store_probe_roundtrip` at a concrete table, hash,
score, depth and one intervening store to another hash. -/
theorem transTable_store_probe_roundtrip_witness :
    transTableLookUp (ttStoreMany (ttStore [] 5 42 7) [(9, 1, 1)]) 5 3
      = some 42 :=
  transTable_store_probe_roundtrip [] 5 42 7 3 [(9, 1, 1)] (by decide)
    (by intro s hs; simp at hs; simp [hs])

/-! ## Killer moves

`updateKillerMoves` (`search.cpp:118`, identical in the `search.hpp` negamax
search) is called on every beta cutoff — captures included — with the cutoff
move and the current `depth`.  If the slot list at that depth holds fewer than
two moves the new move is appended (`push_back`); otherwise the previous slot-0
move is shifted to slot 1 and the new move placed in slot 0. -/

/-- The update of a single killer slot list. -/
def updateKillerList {M : Type} (move : M) (l : List M) : List M :=
  if l.length < 2 then l ++ [move] else [move, l.headD move]

/-- `updateKillerMoves(move, depth)`: updates the slot list at index `depth` of
the killer table, leaving every other index unchanged. -/
def updateKillerMoves {M : Type} (move : M) (depth : Int)
    (km : Int → List M) : Int → List M :=
  fun d => if d = depth then updateKillerList move (km d) else km d

/-- C9 counterexample: killer slots are not kept pairwise distinct, and on a
non-full slot list the new move is appended rather than shifted into slot 0.
From the one-element state `[7]` (which satisfies the claimed invariant),
updating with the same move `7` yields `[7, 7]` — two equal stored moves — and
updating with a fresh move `9` yields `[7, 9]`, i.e. the new move lands in slot
1, not slot 0. -/
theorem updateKillerMoves_violates_distinctness :
    (@updateKillerMoves Nat 7 5 (fun _ => [7])) 5 = [7, 7] ∧
    ¬ List.Pairwise (fun a b => a ≠ b) ((@updateKillerMoves Nat 7 5 (fun _ => [7])) 5) ∧
    (@updateKillerMoves Nat 9 5 (fun _ => [7])) 5 = [7, 9] := by
  refine ⟨rfl, ?_, rfl⟩
  intro hpw
  simp [updateKillerMoves, updateKillerList] at hpw

/-- C9 as amended: the killer table keeps at most two moves per ply, and
`updateKillerMoves` behaves exactly as the code does — on a slot list with
fewer than two moves the new move is appended; on a full slot list the prior
slot-0 move shifts to slot 1 and the new move takes slot 0; other plies are
untouched.  Stored moves are not guaranteed distinct or non-captures. -/
theorem updateKillerMoves_bounded_and_shift {M : Type} (m : M) (depth : Int)
    (km : Int → List M) (hlen : ∀ d, (km d).length ≤ 2) :
    (∀ d, ((updateKillerMoves m depth km) d).length ≤ 2) ∧
    ((km depth).length < 2 →
      (updateKillerMoves m depth km) depth = km depth ++ [m]) ∧
    (∀ x l, km depth = x :: l → l ≠ [] →
      (updateKillerMoves m depth km) depth = [m, x]) ∧
    (∀ d, d ≠ depth → (updateKillerMoves m depth km) d = km d) := by
  refine ⟨?_, ?_, ?_, ?_⟩
  · intro d
    by_cases hd : d = depth
    · simp only [updateKillerMoves, hd, if_true, updateKillerList]
      by_cases hl : (km depth).length < 2
      · simp only [hl, if_true, List.length_append, List.length_cons,
          List.length_nil]
        omega
      · simp [hl]
    · simp [updateKillerMoves, hd, hlen d]
  · intro hl
    simp [updateKillerMoves, updateKillerList, hl]
  · intro x l hkm hl
    obtain ⟨y, ys, rfl⟩ : ∃ y ys, l = y :: ys := by
      cases l with
      | nil => exact absurd rfl hl
      | cons y ys => exact ⟨y, ys, rfl⟩
    have hstep : updateKillerList m (x :: y :: ys) = [m, x] := by
      unfold updateKillerList
      rw [if_neg (by simp only [List.length_cons]; omega)]
      rfl
    simpa [updateKillerMoves, hkm] using hstep
  · intro d hd
    simp [updateKillerMoves, hd]

/-- Witness for `updateKillerMoves_bounded_and_shift` at a concrete table. -/
theorem updateKillerMoves_bounded_and_shift_witness :
    (∀ d : Int, ((@updateKillerMoves Nat 3 1 (fun _ => [8, 9])) d).length ≤ 2) ∧
    (@updateKillerMoves Nat 3 1 (fun _ => [8, 9])) 1 = [3, 8] := by
  have h := @updateKillerMoves_bounded_and_shift Nat 3 1 (fun _ => [8, 9])
    (by intro d; simp)
  exact ⟨h.1, h.2.2.1 8 [9] rfl (by simp)⟩

/-! ## Sorting by priority

`std::sort` with comparator `a.second > b.second` sorts move–priority pairs by
descending priority; it is modelled by an insertion sort with the same
comparator (`std::sort` leaves the order of equal keys unspecified; the model
fixes one). -/

/-- Insert one move–priority pair in front of the first strictly smaller
priority. -/
def insertDesc {M : Type} (x : M × Int) : List (M × Int) → List (M × Int)
  | [] => [x]
  | y :: ys => if x.2 > y.2 then x :: y :: ys else y :: insertDesc x ys

/-- Sort move–priority pairs by descending priority. -/
def sortDesc {M : Type} : List (M × Int) → List (M × Int)
  | [] => []
  | x :: xs => insertDesc x (sortDesc xs)

theorem mem_insertDesc {M : Type} (x a : M × Int) :
    ∀ l : List (M × Int), a ∈ insertDesc x l ↔ a = x ∨ a ∈ l
  | [] => by simp [insertDesc]
  | y :: ys => by
    unfold insertDesc
    by_cases hxy : x.2 > y.2
    · rw [if_pos hxy]
      simp only [List.mem_cons]
    · rw [if_neg hxy]
      simp only [List.mem_cons, mem_insertDesc x a ys]
      tauto

theorem mem_sortDesc {M : Type} (a : M × Int) :
    ∀ l : List (M × Int), a ∈ sortDesc l ↔ a ∈ l
  | [] => Iff.rfl
  | x :: xs => by
    unfold sortDesc
    rw [mem_insertDesc, mem_sortDesc a xs, List.mem_cons]

/-! ## Quiescence search of `search.cpp` (white-relative minimax)

`quiescence` (`search.cpp:224`) explores captures and promotions past the
horizon.  It is white-relative: at a white-to-move node it fails high against
`β` and raises `α`; at a black-to-move node it fails low against `α` and
lowers `β`.  Its very first step is `if (depth == 0) return evaluate(board);`.
The board is passed by reference and threaded explicitly below; the unused
`endGameFlag` local (`search.cpp:257`) is omitted.  The debug-only
`positionCount` statistics counter is likewise omitted. -/

variable {B M : Type}

/-- Candidate generation of `quiescence1` (`search.cpp:259`): every legal move
is made and unmade to test for check; non-capture non-promotions are skipped;
promotions get priority 5000, captures their MVV-LVA value
`pieceValues[victim] − pieceValues[attacker]`, and the (unreachable) check
branch 500.  Returns the candidate list in generation order together with the
threaded board. -/
def q1Candidates (O : Oracle B M) : List M → B → List (M × Int) × B
  | [], b => ([], b)
  | m :: rest, b =>
    let b1 := O.makeMove b m
    let isCheck := O.inCheck b1
    let b2 := O.unmakeMove b1 m
    if ¬ (O.isCapture b2 m = true) ∧ ¬ (O.isPromotion m = true) then
      q1Candidates O rest b2
    else
      let entry : List (M × Int) :=
        if O.isPromotion m then [(m, 5000)]
        else if O.isCapture b2 m then
          [(m, pieceValues (O.pieceTypeAt b2 (O.toIdx m))
               - pieceValues (O.pieceTypeAt b2 (O.fromIdx m)))]
        else if isCheck then [(m, 500)]
        else []
      let r := q1Candidates O rest b2
      (entry ++ r.1, r.2)

/-- The scored-move loop of `quiescence1` (`search.cpp:296`): delta pruning
with margin 400, make, recurse through `rec`, unmake; a white node returns `β`
on `score ≥ β` and raises `α`, a black node returns `α` on `score ≤ α` and
lowers `β`; after the loop a white node returns `α`, a black node `β`. -/
def q1Loop (O : Oracle B M) (rec : B → Int → Int → Int × B)
    (white : Bool) (standPat : Int) :
    List (M × Int) → B → Int → Int → Int × B
  | [], b, α, β => (if white then α else β, b)
  | (m, priority) :: rest, b, α, β =>
    if white ∧ standPat + priority + 400 < α then
      q1Loop O rec white standPat rest b α β
    else if ¬ (white = true) ∧ standPat - priority - 400 > β then
      q1Loop O rec white standPat rest b α β
    else
      let b1 := O.makeMove b m
      let r := rec b1 α β
      let b3 := O.unmakeMove r.2 m
      if white then
        if r.1 ≥ β then (β, b3)
        else q1Loop O rec white standPat rest b3 (max α r.1) β
      else
        if r.1 ≤ α then (α, b3)
        else q1Loop O rec white standPat rest b3 α (min β r.1)

/-- `quiescence` of `search.cpp:224`.  Depth 0 returns the static evaluation
immediately; otherwise the white-relative stand-pat is tested against the
window (fail-high `β` for white, fail-low `α` for black), the window is
tightened, and the sorted capture/promotion candidates are searched. -/
def quiescence1 (O : Oracle B M) : Nat → B → Int → Int → Int × B
  | 0, b, _, _ => (O.evaluate b, b)
  | d + 1, b, α, β =>
    let white := O.sideWhite b
    let standPat := O.evaluate b
    if white ∧ standPat ≥ β then (β, b)
    else if ¬ (white = true) ∧ standPat ≤ α then (α, b)
    else
      let α1 := if white ∧ standPat > α then standPat else α
      let β1 := if ¬ (white = true) ∧ standPat < β then standPat else β
      let r := q1Candidates O (O.legalMoves b) b
      q1Loop O (fun b2 α2 β2 => quiescence1 O d b2 α2 β2) white standPat
        (sortDesc r.1) r.2 α1 β1

/-- A minimal concrete oracle (board = `Nat`, move = `Nat`, no legal moves,
constant evaluation 500) used to exhibit concrete runs of the search. -/
def toyOracle : Oracle Nat Nat where
  sideWhite := fun _ => true
  isGameOver := fun _ => .NONE
  hash := fun b => b
  legalMoves := fun _ => []
  legalCaptures := fun _ => []
  makeMove := fun b _ => b
  unmakeMove := fun b _ => b
  makeNullMove := fun b => b
  unmakeNullMove := fun b => b
  inCheck := fun _ => false
  isCapture := fun _ _ => false
  evaluate := fun _ => 500
  isEndGame := fun _ => false
  gamePhase := fun _ => 13
  fromIdx := fun m => m
  toIdx := fun m => m
  pieceTypeAt := fun _ _ => .PAWN
  isPromotion := fun _ => false
  isQueenPromotion := fun _ => false
  knightAttackCount := fun _ _ => 0
  bishopAttackCount := fun _ _ => 0
  rookAttackCount := fun _ _ => 0
  lmrR := fun _ _ => 1
  mateThreatMove := fun _ _ => false
  promotionThreatMove := fun _ _ => false
  nullMove := 99
  timeUp := fun _ => true

/-- C4 counterexample: at depth 0 with white to move, stand-pat 500 and
`β = 100` — so stand-pat ≥ β — `quiescence1` returns the stand-pat 500, not
`β`: the depth test (`search.cpp:231`) precedes the fail-high test
(`search.cpp:239`), contradicting the claimed order. -/
theorem quiescence_depth0_returns_standPat_not_beta :
    toyOracle.evaluate 0 ≥ 100 ∧
    (quiescence1 toyOracle 0 0 0 100).1 = 500 ∧
    (quiescence1 toyOracle 0 0 0 100).1 ≠ 100 := by
  exact ⟨by decide, rfl, by decide⟩

/-- C4 as amended: in `quiescence1` the depth test precedes the fail-high
test.  A depth-0 call returns the static evaluation unconditionally (even when
it is ≥ β); only at depth > 0 does a white-to-move call with stand-pat ≥ β
return β, and symmetrically a black-to-move call with stand-pat ≤ α return α
(the `search.cpp` quiescence is white-relative minimax, so the white fail-high
test is against β and the black one against α). -/
theorem quiescence1_depth_test_precedes_failhigh (O : Oracle B M) :
    (∀ (b : B) (α β : Int), quiescence1 O 0 b α β = (O.evaluate b, b)) ∧
    (∀ (d : Nat) (b : B) (α β : Int), O.sideWhite b = true →
      O.evaluate b ≥ β → quiescence1 O (d + 1) b α β = (β, b)) ∧
    (∀ (d : Nat) (b : B) (α β : Int), O.sideWhite b = false →
      O.evaluate b ≤ α → quiescence1 O (d + 1) b α β = (α, b)) := by
  refine ⟨fun b α β => rfl, ?_, ?_⟩
  · intro d b α β hw hsp
    unfold quiescence1
    rw [if_pos ⟨by simp [hw], hsp⟩]
  · intro d b α β hw hsp
    unfold quiescence1
    rw [if_neg (by simp [hw]), if_pos ⟨by simp [hw], hsp⟩]

/-- Witness for `quiescence1_depth_test_precedes_failhigh` on the concrete
oracle: a depth-1 white call with β = 100 ≤ stand-pat returns β. -/
theorem quiescence1_depth_test_precedes_failhigh_witness :
    quiescence1 toyOracle 0 0 0 100 = (toyOracle.evaluate 0, 0) ∧
    quiescence1 toyOracle 1 0 0 100 = (100, 0) :=
  ⟨(quiescence1_depth_test_precedes_failhigh toyOracle).1 0 0 100,
   (quiescence1_depth_test_precedes_failhigh toyOracle).2.1 0 0 0 100 rfl
    (by decide)⟩

/-! ## The `search.cpp` alpha-beta search (`alphaBeta1`)

`alphaBeta` (`search.cpp:336`) is a white-relative minimax with two
transposition maps: `lowerBoundTable` is probed and written at white-to-move
nodes, `upperBoundTable` at black-to-move nodes.  The process-wide mutable
state (the two tables, the killer table and the two history tables) is
threaded explicitly as a `SearchState1`.  The recursion is embedded with a
fuel parameter consumed at each recursive call; fuel exhaustion (which the C++
recursion never reaches, its `depth` strictly decreasing) returns score 0 with
the board and state unchanged. -/

/-- The process-wide mutable search state of `search.cpp`:
`lowerBoundTable`, `upperBoundTable`, `killerMoves`, `whiteHistory`,
`blackHistory`. -/
structure SearchState1 (M : Type) where
  lower : TransTable
  upper : TransTable
  killers : Int → List M
  whiteHist : Nat → Nat → Int
  blackHist : Nat → Nat → Int

/-- The threat bonus of `quietPriority` (`search.cpp:70`): 100 for exactly one
attacked target, 200 for two or more. -/
def threatBonus (attackCount : Nat) : Int :=
  if attackCount = 1 then 100 else if attackCount ≥ 2 then 200 else 0

/-- `quietPriority` (`search.cpp:70`): a base priority per moving piece kind
plus the attack-count threat bonus (knight attacks intersected with the
opponent's pieces, bishop/rook attack sets on the current occupancy — the
bitboard counts are oracle primitives). -/
def quietPriority (O : Oracle B M) (b : B) (m : M) : Int :=
  match O.pieceTypeAt b (O.fromIdx m) with
  | .PAWN => 0
  | .KNIGHT => 400 + threatBonus (O.knightAttackCount b m)
  | .BISHOP => 400 + threatBonus (O.bishopAttackCount b m)
  | .ROOK => 300 + threatBonus (O.rookAttackCount b m)
  | .QUEEN => 200
  | _ => 0

/-- `depthReduction` (`search.cpp:131`), the late-move reduction: no reduction
for the first six moves or at depth ≤ 2, otherwise reduce by the
floating-point amount `1 + 0.5*log2(depth) + 0.5*log2(i)` abstracted as
`O.lmrR` (the C++ computes it in `double` arithmetic and truncates to `int`). -/
def depthReduction (O : Oracle B M) (b : B) (m : M) (i : Nat) (depth : Int) :
    Int :=
  if i ≤ 5 then depth - 1
  else if depth ≤ 2 then depth - 1
  else depth - O.lmrR depth i

/-- The classification fold of `prioritizedMoves` (`search.cpp:160`):
promotions 5000, captures `4000 + MVV-LVA`, killer moves 3000, checking moves
2000 (found by make/unmake), and quiet moves their history value — or, when
that is zero, `quietPriority`.  Tactical moves go to the first bucket, quiet
moves to the second; the board is threaded through the make/unmake pairs. -/
def pm1Classify (O : Oracle B M) [DecidableEq M] (depth : Int)
    (st : SearchState1 M) (white : Bool) :
    List M → B → (List (M × Int) × List (M × Int)) × B
  | [], b => (([], []), b)
  | m :: rest, b =>
    if O.isPromotion m then
      let r := pm1Classify O depth st white rest b
      (((m, 5000) :: r.1.1, r.1.2), r.2)
    else if O.isCapture b m then
      let p := 4000 + pieceValues (O.pieceTypeAt b (O.toIdx m))
                 - pieceValues (O.pieceTypeAt b (O.fromIdx m))
      let r := pm1Classify O depth st white rest b
      (((m, p) :: r.1.1, r.1.2), r.2)
    else if m ∈ st.killers depth then
      let r := pm1Classify O depth st white rest b
      (((m, 3000) :: r.1.1, r.1.2), r.2)
    else
      let b1 := O.makeMove b m
      let isCheck := O.inCheck b1
      let b2 := O.unmakeMove b1 m
      if isCheck then
        let r := pm1Classify O depth st white rest b2
        (((m, 2000) :: r.1.1, r.1.2), r.2)
      else
        let hp := if white then st.whiteHist (O.fromIdx m) (O.toIdx m)
                  else st.blackHist (O.fromIdx m) (O.toIdx m)
        let p := if hp = 0 then quietPriority O b2 m else hp
        let r := pm1Classify O depth st white rest b2
        ((r.1.1, (m, p) :: r.1.2), r.2)

/-- `prioritizedMoves` (`search.cpp:147`): classify all legal moves, sort the
tactical bucket and the quiet bucket each by descending priority, and return
tactical moves before quiet moves. -/
def prioritizedMoves1 (O : Oracle B M) [DecidableEq M] (b : B) (depth : Int)
    (st : SearchState1 M) : List (M × Int) × B :=
  let r := pm1Classify O depth st (O.sideWhite b) (O.legalMoves b) b
  (sortDesc r.1.1 ++ sortDesc r.1.2, r.2)

theorem exists_pair_mem_cons_left {M : Type} (m m2 : M) (p0 : Int)
    (c q : List (M × Int)) :
    (∃ p, (m, p) ∈ (m2, p0) :: c ∨ (m, p) ∈ q) ↔
      (m = m2 ∨ ∃ p, (m, p) ∈ c ∨ (m, p) ∈ q) := by
  constructor
  · rintro ⟨p, hp | hp⟩
    · rcases List.mem_cons.mp hp with heq | hmem
      · exact Or.inl (congrArg Prod.fst heq)
      · exact Or.inr ⟨p, Or.inl hmem⟩
    · exact Or.inr ⟨p, Or.inr hp⟩
  · rintro (rfl | ⟨p, hp | hp⟩)
    · exact ⟨p0, Or.inl (List.mem_cons_self _ _)⟩
    · exact ⟨p, Or.inl (List.mem_cons_of_mem _ hp)⟩
    · exact ⟨p, Or.inr hp⟩

theorem exists_pair_mem_cons_right {M : Type} (m m2 : M) (p0 : Int)
    (c q : List (M × Int)) :
    (∃ p, (m, p) ∈ c ∨ (m, p) ∈ (m2, p0) :: q) ↔
      (m = m2 ∨ ∃ p, (m, p) ∈ c ∨ (m, p) ∈ q) := by
  constructor
  · rintro ⟨p, hp | hp⟩
    · exact Or.inr ⟨p, Or.inl hp⟩
    · rcases List.mem_cons.mp hp with heq | hmem
      · exact Or.inl (congrArg Prod.fst heq)
      · exact Or.inr ⟨p, Or.inr hmem⟩
  · rintro (rfl | ⟨p, hp | hp⟩)
    · exact ⟨p0, Or.inr (List.mem_cons_self _ _)⟩
    · exact ⟨p, Or.inl hp⟩
    · exact ⟨p, Or.inr (List.mem_cons_of_mem _ hp)⟩

theorem pm1Classify_mem (O : Oracle B M) [DecidableEq M] (depth : Int)
    (st : SearchState1 M) (white : Bool) (m : M) :
    ∀ (l : List M) (b : B),
      ((∃ p, (m, p) ∈ (pm1Classify O depth st white l b).1.1 ∨
             (m, p) ∈ (pm1Classify O depth st white l b).1.2) ↔ m ∈ l)
  | [], b => by simp [pm1Classify]
  | m2 :: rest, b => by
    cases h1 : O.isPromotion m2 with
    | true =>
      simp only [pm1Classify, h1, if_true]
      rw [exists_pair_mem_cons_left, pm1Classify_mem O depth st white m rest b,
        List.mem_cons]
    | false =>
      cases h2 : O.isCapture b m2 with
      | true =>
        simp only [pm1Classify, h1, h2, Bool.false_eq_true, if_true, if_false]
        rw [exists_pair_mem_cons_left,
          pm1Classify_mem O depth st white m rest b, List.mem_cons]
      | false =>
        by_cases h3 : m2 ∈ st.killers depth
        · simp only [pm1Classify, h1, h2, h3, Bool.false_eq_true, if_true,
            if_false]
          rw [exists_pair_mem_cons_left,
            pm1Classify_mem O depth st white m rest b, List.mem_cons]
        · cases h4 : O.inCheck (O.makeMove b m2) with
          | true =>
            simp only [pm1Classify, h1, h2, h3, h4, Bool.false_eq_true,
              if_true, if_false]
            rw [exists_pair_mem_cons_left,
              pm1Classify_mem O depth st white m rest
                (O.unmakeMove (O.makeMove b m2) m2), List.mem_cons]
          | false =>
            simp only [pm1Classify, h1, h2, h3, h4, Bool.false_eq_true,
              if_true, if_false]
            rw [exists_pair_mem_cons_right,
              pm1Classify_mem O depth st white m rest
                (O.unmakeMove (O.makeMove b m2) m2), List.mem_cons]


theorem prioritizedMoves1_mem (O : Oracle B M) [DecidableEq M] (b : B)
    (depth : Int) (st : SearchState1 M) (m : M) :
    (∃ p, (m, p) ∈ (prioritizedMoves1 O b depth st).1) ↔
      m ∈ O.legalMoves b := by
  unfold prioritizedMoves1
  simp only [List.mem_append, mem_sortDesc]
  exact pm1Classify_mem O depth st (O.sideWhite b) m (O.legalMoves b) b

/-- The result of one `alphaBeta1` call: the returned score, the principal
variation written into the by-reference `PV` argument, and the threaded board
and search state. -/
structure AB1Out (B M : Type) where
  value : Int
  pv : List M
  board : B
  st : SearchState1 M

/-- The transposition probe of `alphaBeta` (`search.cpp:370`): at a
white-to-move node the `lowerBoundTable` entry produces an immediate return
only when its value is ≥ β; at a black-to-move node the `upperBoundTable`
entry only when its value is ≤ α.  (These are the only bound kinds the
implementation keeps; it stores no EXACT entries.) -/
def ttProbe1 (O : Oracle B M) (b : B) (depth α β : Int)
    (st : SearchState1 M) : Option Int :=
  if O.sideWhite b then
    match transTableLookUp st.lower (O.hash b) depth with
    | some e => if e ≥ β then some e else none
    | none => none
  else
    match transTableLookUp st.upper (O.hash b) depth with
    | some e => if e ≤ α then some e else none
    | none => none

/-- The history-heuristic increment on a cutoff by a non-capture
(`search.cpp:505`): add `depth² + depth − 1` at `(from, to)`. -/
def histBump (O : Oracle B M) (m : M) (depth : Int)
    (h : Nat → Nat → Int) : Nat → Nat → Int :=
  fun f t =>
    if f = O.fromIdx m ∧ t = O.toIdx m then h f t + (depth * depth + depth - 1)
    else h f t

/-- One iteration's search of the move loop (`search.cpp:449`): make the
move, pick the next depth (no reduction when in check after the move, else
`depthReduction`), recurse, unmake; when the (reduced-depth) result improves
the window and the depth was reduced, re-search at full `depth − 1`. -/
def ab1Iter (O : Oracle B M)
    (rec : B → Int → Int → Int → SearchState1 M → AB1Out B M)
    (white : Bool) (depth : Int) (m : M) (i : Nat) (b : B) (α β : Int)
    (st : SearchState1 M) : AB1Out B M :=
  let b1 := O.makeMove b m
  let nd := if O.inCheck b1 then depth - 1 else depthReduction O b1 m i depth
  let r1 := rec b1 nd α β st
  let b2 := O.unmakeMove r1.board m
  if (if white then r1.value > α else r1.value < β) ∧ nd < depth - 1 then
    let b3 := O.makeMove b2 m
    let r2 := rec b3 (depth - 1) α β r1.st
    ⟨r2.value, r2.pv, O.unmakeMove r2.board m, r2.st⟩
  else ⟨r1.value, r1.pv, b2, r1.st⟩

/-- The move loop of `alphaBeta` (`search.cpp:442`): per move run `ab1Iter`,
update PV, best value and the window; on a beta cutoff update the killer
table and — for non-captures — the history table, then break. -/
def ab1Loop (O : Oracle B M)
    (rec : B → Int → Int → Int → SearchState1 M → AB1Out B M)
    (white : Bool) (depth : Int) :
    List (M × Int) → Nat → B → Int → Int → Int → List M →
      SearchState1 M → AB1Out B M
  | [], _, b, _, _, bestEval, PV, st => ⟨bestEval, PV, b, st⟩
  | (m, _) :: rest, i, b, α, β, bestEval, PV, st =>
    let s := ab1Iter O rec white depth m i b α β st
    let PV1 := if (if white then s.value > α else s.value < β) then
        m :: s.pv else PV
    let bestEval1 := if white then max bestEval s.value else min bestEval s.value
    let α1 := if white then max α s.value else α
    let β1 := if white then β else min β s.value
    if β1 ≤ α1 then
      let k := updateKillerMoves m depth s.st.killers
      let st1 : SearchState1 M :=
        if O.isCapture s.board m then { s.st with killers := k }
        else if white then
          { s.st with killers := k, whiteHist := histBump O m depth s.st.whiteHist }
        else
          { s.st with killers := k, blackHist := histBump O m depth s.st.blackHist }
      ⟨bestEval1, PV1, s.board, st1⟩
    else
      ab1Loop O rec white depth rest (i + 1) s.board α1 β1 bestEval1 PV1 s.st

/-- The move-loop phase of `alphaBeta` (`search.cpp:439`): order the moves,
run the loop from `bestEval = ∓INF`, then store the best value at the current
board hash in the side's table and return it. -/
def ab1MoveLoop (O : Oracle B M) [DecidableEq M]
    (rec : B → Int → Int → Int → SearchState1 M → AB1Out B M)
    (b : B) (depth α β : Int) (st : SearchState1 M) (white : Bool) :
    AB1Out B M :=
  let pmr := prioritizedMoves1 O b depth st
  let bestInit : Int := if white then -INF else INF
  let lr := ab1Loop O rec white depth pmr.1 0 pmr.2 α β bestInit [] st
  let st2 : SearchState1 M :=
    if white then
      { lr.st with lower := ttStore lr.st.lower (O.hash lr.board) lr.value depth }
    else
      { lr.st with upper := ttStore lr.st.upper (O.hash lr.board) lr.value depth }
  ⟨lr.value, lr.pv, lr.board, st2⟩

/-- The razoring phase of `alphaBeta` (`search.cpp:422`): at depth ≤ 2, when
not in check, evaluate the position by quiescence; a white node whose
quiescence stand-pat plus the 350 margin still falls below α returns α, a
black node symmetrically returns β; otherwise fall through to the move loop. -/
def ab1Razor (O : Oracle B M) [DecidableEq M]
    (rec : B → Int → Int → Int → SearchState1 M → AB1Out B M)
    (b : B) (depth α β : Int) (qd : Nat) (st : SearchState1 M)
    (white : Bool) : AB1Out B M :=
  if depth ≤ 2 ∧ ¬ (O.inCheck b = true) then
    let r := quiescence1 O qd b α β
    if white ∧ r.1 + 350 < α then ⟨α, [], r.2, st⟩
    else if ¬ (white = true) ∧ r.1 - 350 > β then ⟨β, [], r.2, st⟩
    else ab1MoveLoop O rec r.2 depth α β st white
  else ab1MoveLoop O rec b depth α β st white

/-- The body of `alphaBeta` after the game-over check and the transposition
probe (`search.cpp:382` onwards): quiescence at the horizon (with a table
store), null-move pruning (depth ≥ 6, not in check, not endgame, reduction
`R = 2`, fail-soft return of the null score), then razoring and the move loop
followed by the final table store of the best value at the current hash. -/
def ab1Main (O : Oracle B M) [DecidableEq M]
    (rec : B → Int → Int → Int → SearchState1 M → AB1Out B M)
    (b : B) (depth α β : Int) (qd : Nat) (st : SearchState1 M) : AB1Out B M :=
  let white := O.sideWhite b
  let hash := O.hash b
  let endGameFlag := O.isEndGame b
  if depth ≤ 0 then
    let r := quiescence1 O qd b α β
    let st1 : SearchState1 M :=
      if white then { st with lower := ttStore st.lower hash r.1 depth }
      else { st with upper := ttStore st.upper hash r.1 depth }
    ⟨r.1, [], r.2, st1⟩
  else
    let n : Option Int × B × SearchState1 M :=
      if ¬ (endGameFlag = true) ∧ depth ≥ 6 ∧ ¬ (O.inCheck b = true) then
        let bn := O.makeNullMove b
        let rn :=
          if white then rec bn (depth - 2) (β - 1) β st
          else rec bn (depth - 2) α (α + 1) st
        let b1 := O.unmakeNullMove rn.board
        if (white ∧ rn.value ≥ β) ∨ (¬ (white = true) ∧ rn.value ≤ α) then
          (some rn.value, b1, rn.st)
        else (none, b1, rn.st)
      else (none, b, st)
    match n with
    | (some v, b1, st1) => ⟨v, [], b1, st1⟩
    | (none, b1, st1) => ab1Razor O rec b1 depth α β qd st1 white

/-- `alphaBeta` (`search.cpp:336`).  The C++ recursion is on `depth`, which
strictly decreases at every recursive call; a fuel parameter consumed per call
embeds it (fuel exhaustion, unreachable when the fuel exceeds the depth,
returns 0 with the state unchanged).  Order of business, as in the source:
game-over check first (checkmate scores `∓(INF/2 − (1000 − depth))`
white-relative, draws 0), then the transposition probe with its immediate
return, then `ab1Main`. -/
def alphaBeta1 (O : Oracle B M) [DecidableEq M] :
    Nat → B → Int → Int → Int → Nat → SearchState1 M → AB1Out B M
  | 0, b, _, _, _, _, st => ⟨0, [], b, st⟩
  | f + 1, b, depth, α, β, qd, st =>
    match O.isGameOver b with
    | .NONE =>
      match ttProbe1 O b depth α β st with
      | some e => ⟨e, [], b, st⟩
      | none =>
        ab1Main O (fun b2 d2 α2 β2 st2 => alphaBeta1 O f b2 d2 α2 β2 qd st2)
          b depth α β qd st
    | .CHECKMATE =>
      ⟨if O.sideWhite b then -(INF / 2) + (1000 - depth)
        else INF / 2 - (1000 - depth), [], b, st⟩
    | _ => ⟨0, [], b, st⟩

/-- The empty initial search state: empty tables, empty killer lists, zero
history — the state before the first search. -/
def emptyState1 : SearchState1 Nat :=
  ⟨[], [], fun _ => [], fun _ _ => 0, fun _ _ => 0⟩

/-- A concrete oracle whose every position is a checkmate for the side to move
(white to move). -/
def mateOracle : Oracle Nat Nat :=
  { toyOracle with isGameOver := fun _ => .CHECKMATE }

/-- C2: on a game-over position, `alphaBeta1` returns 0 for every draw
(stalemate, fifty-move, repetition, insufficient material) and, for checkmate,
the white-relative mate score `∓(INF/2 − (1000 − depth))`, which is negative
from the perspective of the side to move (the side that is checkmated) and has
magnitude `INF/2 − (1000 − depth)`, strictly increasing in the remaining
depth, so mates found nearer the root (larger remaining `depth`) dominate
deeper ones.  The depth-range hypotheses cover every reachable call: the
engine searches with root depth at most `ENGINE_DEPTH = 30 ≤ 1000`, and
reductions lower `depth` by a bounded amount per ply. -/
theorem alphaBeta1_gameOver_scores (O : Oracle B M) [DecidableEq M]
    (f : Nat) (b : B) (depth α β : Int) (qd : Nat) (st : SearchState1 M)
    (hd1 : -10000 ≤ depth) (hd2 : depth ≤ 1000) :
    (O.isGameOver b ≠ .NONE → O.isGameOver b ≠ .CHECKMATE →
      (alphaBeta1 O (f + 1) b depth α β qd st).value = 0) ∧
    (O.isGameOver b = .CHECKMATE →
      (alphaBeta1 O (f + 1) b depth α β qd st).value =
        (if O.sideWhite b then -(INF / 2 - (1000 - depth))
         else INF / 2 - (1000 - depth)) ∧
      (if O.sideWhite b
        then (alphaBeta1 O (f + 1) b depth α β qd st).value
        else -(alphaBeta1 O (f + 1) b depth α β qd st).value) < 0 ∧
      |(alphaBeta1 O (f + 1) b depth α β qd st).value| =
        INF / 2 - (1000 - depth)) ∧
    (∀ d1 d2 : Int, d1 < d2 →
      INF / 2 - (1000 - d1) < INF / 2 - (1000 - d2)) := by
  have hINF : INF / 2 = (50000 : Int) := by norm_num [INF]
  refine ⟨?_, ?_, ?_⟩
  · intro hgo hcm
    cases h : O.isGameOver b with
    | NONE => exact absurd h hgo
    | CHECKMATE => exact absurd h hcm
    | STALEMATE => simp [alphaBeta1, h]
    | INSUFFICIENT_MATERIAL => simp [alphaBeta1, h]
    | FIFTY_MOVE_RULE => simp [alphaBeta1, h]
    | THREEFOLD_REPETITION => simp [alphaBeta1, h]
  · intro hcm
    have hval : (alphaBeta1 O (f + 1) b depth α β qd st).value =
        (if O.sideWhite b then -(INF / 2) + (1000 - depth)
         else INF / 2 - (1000 - depth)) := by
      simp [alphaBeta1, hcm]
    cases hw : O.sideWhite b with
    | true =>
      simp only [hval, hw, if_true]
      refine ⟨by ring, by rw [hINF]; omega, ?_⟩
      rw [abs_of_nonpos (by rw [hINF]; omega), hINF]
      ring
    | false =>
      simp only [hval, hw, Bool.false_eq_true, if_false]
      refine ⟨trivial, by rw [hINF]; omega, ?_⟩
      rw [abs_of_nonneg (by rw [hINF]; omega)]
  · intro d1 d2 h
    omega

/-- Witness for `alphaBeta1_gameOver_scores`: a checkmated white-to-move
position at depth 3 yields the mate score −(50000 − 997) = −49003. -/
theorem alphaBeta1_gameOver_scores_witness :
    (alphaBeta1 mateOracle 1 0 3 (-INF) INF 0 emptyState1).value = -49003 ∧
    |(alphaBeta1 mateOracle 1 0 3 (-INF) INF 0 emptyState1).value|
      = INF / 2 - (1000 - 3) := by
  have h := alphaBeta1_gameOver_scores mateOracle 0 0 3 (-INF) INF 0
    emptyState1 (by norm_num) (by norm_num)
  have hcm := (h.2.1 rfl)
  refine ⟨?_, hcm.2.2⟩
  rw [hcm.1]
  norm_num [mateOracle, toyOracle, INF]

/-- C3: a probed transposition entry produces an immediate return from
`alphaBeta1` only when its bound settles the current window.  At a
white-to-move node only a `lowerBoundTable` (LOWER-bound) entry with value ≥ β
causes the immediate return; at a black-to-move node only an
`upperBoundTable` (UPPER-bound) entry with value ≤ α; an entry whose value
does not settle the window never does — the search falls through to the main
body.  (This implementation stores no EXACT-kind entries, so the EXACT clause
of the claim is vacuously satisfied.) -/
theorem alphaBeta1_tt_probe_settles (O : Oracle B M) [DecidableEq M]
    (f : Nat) (b : B) (depth α β : Int) (qd : Nat) (st : SearchState1 M)
    (hgo : O.isGameOver b = .NONE) :
    (∀ e, ttProbe1 O b depth α β st = some e →
      (alphaBeta1 O (f + 1) b depth α β qd st).value = e) ∧
    (∀ e, ttProbe1 O b depth α β st = some e →
      (O.sideWhite b = true ∧
        transTableLookUp st.lower (O.hash b) depth = some e ∧ e ≥ β) ∨
      (O.sideWhite b = false ∧
        transTableLookUp st.upper (O.hash b) depth = some e ∧ e ≤ α)) ∧
    (∀ e, O.sideWhite b = true →
      transTableLookUp st.lower (O.hash b) depth = some e → e < β →
      ttProbe1 O b depth α β st = none) ∧
    (∀ e, O.sideWhite b = false →
      transTableLookUp st.upper (O.hash b) depth = some e → e > α →
      ttProbe1 O b depth α β st = none) ∧
    (ttProbe1 O b depth α β st = none →
      alphaBeta1 O (f + 1) b depth α β qd st =
        ab1Main O (fun b2 d2 α2 β2 st2 => alphaBeta1 O f b2 d2 α2 β2 qd st2)
          b depth α β qd st) := by
  refine ⟨?_, ?_, ?_, ?_, ?_⟩
  · intro e hp
    simp [alphaBeta1, hgo, hp]
  · intro e hp
    unfold ttProbe1 at hp
    cases hw : O.sideWhite b with
    | true =>
      rw [hw, if_pos rfl] at hp
      left
      cases hl : transTableLookUp st.lower (O.hash b) depth with
      | none =>
        rw [hl] at hp
        exact absurd (show (none : Option Int) = some e from hp) (by simp)
      | some e2 =>
        rw [hl] at hp
        have hp2 : (if e2 ≥ β then (some e2 : Option Int) else none) = some e :=
          hp
        by_cases hb : e2 ≥ β
        · rw [if_pos hb] at hp2
          injection hp2 with hp2
          exact ⟨rfl, by rw [hp2], hp2 ▸ hb⟩
        · rw [if_neg hb] at hp2
          exact absurd hp2 (by simp)
    | false =>
      rw [hw] at hp
      rw [if_neg (by simp)] at hp
      right
      cases hl : transTableLookUp st.upper (O.hash b) depth with
      | none =>
        rw [hl] at hp
        exact absurd (show (none : Option Int) = some e from hp) (by simp)
      | some e2 =>
        rw [hl] at hp
        have hp2 : (if e2 ≤ α then (some e2 : Option Int) else none) = some e :=
          hp
        by_cases hb : e2 ≤ α
        · rw [if_pos hb] at hp2
          injection hp2 with hp2
          exact ⟨rfl, by rw [hp2], hp2 ▸ hb⟩
        · rw [if_neg hb] at hp2
          exact absurd hp2 (by simp)
  · intro e hw hl hlt
    unfold ttProbe1
    rw [hw, if_pos rfl, hl]
    show (if e ≥ β then (some e : Option Int) else none) = none
    rw [if_neg (by omega)]
  · intro e hw hl hgt
    unfold ttProbe1
    rw [hw]
    rw [if_neg (by simp), hl]
    show (if e ≤ α then (some e : Option Int) else none) = none
    rw [if_neg (by omega)]
  · intro hnone
    simp [alphaBeta1, hgo, hnone]

/-- Witness for `alphaBeta1_tt_probe_settles`: with a stored LOWER entry
(value 77, depth 5) at the current hash and window β = 50 ≤ 77, the probe
settles and `alphaBeta1` immediately returns 77; raising β to 100 makes the
entry non-settling and the probe refuses it. -/
theorem alphaBeta1_tt_probe_settles_witness :
    (alphaBeta1 toyOracle 1 0 3 0 50 0
      ⟨[(0, 77, 5)], [], fun _ => [], fun _ _ => 0, fun _ _ => 0⟩).value = 77 ∧
    ttProbe1 toyOracle 0 3 0 100
      ⟨[(0, 77, 5)], [], fun _ => [], fun _ _ => 0, fun _ _ => 0⟩ = none := by
  constructor
  · exact (alphaBeta1_tt_probe_settles toyOracle 0 0 3 0 50 0
      ⟨[(0, 77, 5)], [], fun _ => [], fun _ _ => 0, fun _ _ => 0⟩ rfl).1 77 rfl
  · exact (alphaBeta1_tt_probe_settles toyOracle 0 0 3 0 100 0
      ⟨[(0, 77, 5)], [], fun _ => [], fun _ _ => 0, fun _ _ => 0⟩ rfl).2.2.1 77
      rfl rfl (by norm_num)

/-! ## The negamax search of `search.hpp` (`alphaBeta2`)

The newer search in `search.hpp` is a side-to-move-relative negamax: one
`transpositionTable`, a `hashMoveTable` of best moves, killer moves, futility
pruning, razoring, null-move pruning with reduction `3 + depth/4`, late-move
reduction and check/mate-threat/promotion-threat/one-reply extensions.  The
globals `mopUp`, `previousPV` and `globalMaxDepth` are passed as parameters;
the shared tables are threaded as a `SearchState2`.  The `nodeCount`
statistics counter is omitted. -/

/-- The process-wide mutable state of the `search.hpp` search:
`transpositionTable`, `hashMoveTable`, `killerMoves`. -/
structure SearchState2 (M : Type) where
  tt : TransTable
  hashMove : List (Nat × M)
  killers : Int → List M

/-- `hashMoveTable` lookup (`hashMoveTable.count(hash)` + access). -/
def hmFind {M : Type} (t : List (Nat × M)) (h : Nat) : Option M :=
  match t.find? (fun e => e.1 == h) with
  | some e => some e.2
  | none => none

/-- `hashMoveTable[hash] = move` (insert or replace). -/
def hmStore {M : Type} (t : List (Nat × M)) (h : Nat) (m : M) :
    List (Nat × M) :=
  if t.any (fun x => x.1 == h) then
    t.map (fun x => if x.1 == h then (h, m) else x)
  else (h, m) :: t

/-- The transposition probe of the negamax `alphaBeta` (`search.hpp:1055`):
`transTableLookUp(hash, depth, storedEval) && storedEval >= beta` — the single
table is used as a lower-bound table; an entry produces an immediate return
only when its value is ≥ β. -/
def ttProbe2 (t : TransTable) (h : Nat) (depth β : Int) : Option Int :=
  match transTableLookUp t h depth with
  | some e => if e ≥ β then some e else none
  | none => none

/-- `pruningCondition` of the negamax `alphaBeta` (`search.hpp:1080`):
`!board.inCheck() && !mopUp && !endGameFlag && !alpha > INF/4`.  In C++ `!`
binds tighter than `>`, so the final conjunct compares the bool `!alpha`
(that is, `alpha == 0`), integer-promoted to 0 or 1, against `INF/4 = 25000`:
it is false for every `alpha`. -/
def pruningCondition2 (inChk mopUpFlag endGameFlag : Bool) (α : Int) : Bool :=
  !inChk && !mopUpFlag && !endGameFlag &&
    decide ((if α = 0 then (1 : Int) else 0) > INF / 4)

/-- `lateMoveReduction` (`search.hpp:838`): make/unmake to test whether the
move gives check; no reduction for the first moves (`i ≤ k1`), shallow depths
(`≤ 3`), mop-up, queen promotions or mate/promotion threats; reduce by one
extra when the move is a capture or a check or the side is in check or
`i ≤ k2`; otherwise reduce by two extra.  Returns the reduced depth and the
threaded board. -/
def lateMoveReduction2 (O : Oracle B M) (mopUpFlag : Bool) (b : B) (m : M)
    (i : Nat) (depth : Int) (isPV : Bool) : Int × B :=
  let b1 := O.makeMove b m
  let isCheck := O.inCheck b1
  let b2 := O.unmakeMove b1 m
  let isCapture := O.isCapture b2 m
  let inChk := O.inCheck b2
  let isPromoting := O.isQueenPromotion m
  let isMateThreat := O.mateThreatMove b2 m
  let isPromotionThreat := O.promotionThreatMove b2 m
  let noReduceCondition :=
    mopUpFlag || isPromoting || isMateThreat || isPromotionThreat
  let reduceLessCondition := isCheck || inChk || isCapture
  let k1 : Nat := if isPV then 2 else 1
  let k2 : Nat := if isPV then 5 else 3
  (if i ≤ k1 ∨ depth ≤ 3 ∨ noReduceCondition = true then depth - 1
   else if i ≤ k2 ∨ reduceLessCondition = true then depth - 2
   else depth - 3, b2)

/-- The classification fold of `orderedMoves` (`search.hpp:893`): hash move
9000 (pushed and `continue`d), previous-PV move 10000 on the leftmost line
(the C++ guard `previousPV.size() > ply && leftMost` compares the signed `ply`
against the unsigned `size()`, so a negative `ply` fails it), killers 2000,
queen promotions 6000, captures `4000 + MVV-LVA`, checking moves 3000, the
rest quiet with priority 0 (`quietPriority` is commented out in this
version). -/
def om2Classify (O : Oracle B M) [DecidableEq M] (depth : Int)
    (st : SearchState2 M) (prevPV : List M) (leftMost : Bool) (gmd : Int)
    (hash : Nat) : List M → B → (List (M × Int) × List (M × Int)) × B
  | [], b => (([], []), b)
  | m :: rest, b =>
    let ply := gmd - depth
    if hmFind st.hashMove hash = some m then
      let r := om2Classify O depth st prevPV leftMost gmd hash rest b
      (((m, 9000) :: r.1.1, r.1.2), r.2)
    else if 0 ≤ ply ∧ ply.toNat < prevPV.length ∧ leftMost = true then
      let p : Int := if prevPV[ply.toNat]? = some m then 10000 else 0
      let r := om2Classify O depth st prevPV leftMost gmd hash rest b
      (((m, p) :: r.1.1, r.1.2), r.2)
    else if m ∈ st.killers depth then
      let r := om2Classify O depth st prevPV leftMost gmd hash rest b
      (((m, 2000) :: r.1.1, r.1.2), r.2)
    else if O.isQueenPromotion m then
      let r := om2Classify O depth st prevPV leftMost gmd hash rest b
      (((m, 6000) :: r.1.1, r.1.2), r.2)
    else if O.isCapture b m then
      let p := 4000 + pieceValues (O.pieceTypeAt b (O.toIdx m))
                 - pieceValues (O.pieceTypeAt b (O.fromIdx m))
      let r := om2Classify O depth st prevPV leftMost gmd hash rest b
      (((m, p) :: r.1.1, r.1.2), r.2)
    else
      let b1 := O.makeMove b m
      let isCheck := O.inCheck b1
      let b2 := O.unmakeMove b1 m
      if isCheck then
        let r := om2Classify O depth st prevPV leftMost gmd hash rest b2
        (((m, 3000) :: r.1.1, r.1.2), r.2)
      else
        let r := om2Classify O depth st prevPV leftMost gmd hash rest b2
        ((r.1.1, (m, 0) :: r.1.2), r.2)

/-- `orderedMoves` (`search.hpp:874`): classify all legal moves against the
hash computed once at entry, sort the tactical bucket by descending priority
and append the quiet bucket (unsorted in this version). -/
def orderedMoves2 (O : Oracle B M) [DecidableEq M] (b : B) (depth : Int)
    (prevPV : List M) (leftMost : Bool) (gmd : Int) (st : SearchState2 M) :
    List (M × Int) × B :=
  let r := om2Classify O depth st prevPV leftMost gmd (O.hash b)
    (O.legalMoves b) b
  (sortDesc r.1.1 ++ r.1.2, r.2)

/-- The capture loop of the negamax quiescence (`search.hpp:1003`): make,
negamax-recurse with window `[−β, −α]`, unmake; raise `bestScore` and `α`;
return `β` on `α ≥ β`. -/
def q2Loop (O : Oracle B M) (rec : B → Int → Int → Int × B) :
    List (M × Int) → B → Int → Int → Int → Int × B
  | [], b, _, _, bestScore => (bestScore, b)
  | (m, _) :: rest, b, α, β, bestScore =>
    let b1 := O.makeMove b m
    let r := rec b1 (-β) (-α)
    let score := -r.1
    let b2 := O.unmakeMove r.2 m
    let bestScore1 := max bestScore score
    let α1 := max α score
    if α1 ≥ β then (β, b2)
    else q2Loop O rec rest b2 α1 β bestScore1

/-- `quiescence` of `search.hpp:958` (negamax, captures only): the
side-relative stand-pat `color * evaluate` first raises `α`; the depth test
`depth <= 0` (returning the stand-pat) precedes the fail-high test
`standPat >= beta` (returning `β`); capture candidates are generated by the
library's capture movegen, MVV-LVA sorted, and searched by `q2Loop`.  The
unused `biggestMaterialGain` accumulator of the source is omitted. -/
def quiescence2 (O : Oracle B M) : Nat → B → Int → Int → Int × B
  | 0, b, _, _ =>
    let color : Int := if O.sideWhite b then 1 else -1
    (color * O.evaluate b, b)
  | d + 1, b, α, β =>
    let color : Int := if O.sideWhite b then 1 else -1
    let standPat := color * O.evaluate b
    let α1 := max α standPat
    if standPat ≥ β then (β, b)
    else
      let α2 := max α1 standPat
      let cands := sortDesc ((O.legalCaptures b).map (fun m =>
        (m, pieceValues (O.pieceTypeAt b (O.toIdx m))
            - pieceValues (O.pieceTypeAt b (O.fromIdx m)))))
      q2Loop O (fun b2 α3 β3 => quiescence2 O d b2 α3 β3) cands b α2 β standPat

/-- The result of one negamax `alphaBeta` call: returned score, final
contents of the by-reference `PV` vector, threaded board and state. -/
structure AB2Out (B M : Type) where
  value : Int
  pv : List M
  board : B
  st : SearchState2 M

/-- The move loop of the negamax `alphaBeta` (`search.hpp:1124`): late-move
reduction, `leftMost` cleared after the first move, make, extension check
(check / mate-threat / promotion-threat / one-reply, one ply each, gated by
the remaining extension budget), PV-vs-scout recursion, unmake, re-search at
full depth and window on the leftmost line or when a reduced scout raised α,
PV update, `α`/best update, and on `β ≤ α` a killer update and break. -/
def ab2Loop (O : Oracle B M) [DecidableEq M] (mopUpFlag : Bool)
    (rec : B → Int → Int → Int → List M → Bool → Int → SearchState2 M →
      AB2Out B M)
    (depth : Int) (isPV : Bool) (numMoves : Nat) :
    List (M × Int) → Nat → B → Int → Int → Int → List M → Bool → Int →
      SearchState2 M → AB2Out B M
  | [], _, b, _, _, bestEval, PV, _, _, st => ⟨bestEval, PV, b, st⟩
  | (m, _) :: rest, i, b, α, β, bestEval, PV, leftMost, extension, st =>
    let lr := lateMoveReduction2 O mopUpFlag b m i depth isPV
    let leftMost1 := if i > 0 then false else leftMost
    let b1 := O.makeMove lr.2 m
    let isCheck := O.inCheck b1
    let isMateThreat := O.mateThreatMove b1 m
    let isPromotionThreat := O.promotionThreatMove b1 m
    let isOneReply := numMoves = 1
    let ext :=
      if (isCheck || isMateThreat || isPromotionThreat) = true ∧
          extension > 0 then
        let numPlies : Int := 0
        let numPlies := if isCheck then max 1 numPlies else numPlies
        let numPlies := if isMateThreat then max 1 numPlies else numPlies
        let numPlies := if isPromotionThreat then max 1 numPlies else numPlies
        let numPlies := if isOneReply ∧ ¬ (isCheck = true) then max 1 numPlies
          else numPlies
        (lr.1 + numPlies, extension - 1)
      else (lr.1, extension)
    let r1 :=
      if isPV ∨ leftMost1 = true then
        rec b1 (depth - 1) (-β) (-α) [] leftMost1 ext.2 st
      else
        rec b1 ext.1 (-(α + 1)) (-α) [] leftMost1 ext.2 st
    let eval1 := -r1.value
    let b2 := O.unmakeMove r1.board m
    let s : AB2Out B M :=
      if leftMost1 = true ∨ (eval1 > α ∧ ext.1 < depth - 1) then
        let b3 := O.makeMove b2 m
        let r2 := rec b3 (depth - 1) (-β) (-α) r1.pv leftMost1 ext.2 r1.st
        ⟨-r2.value, r2.pv, O.unmakeMove r2.board m, r2.st⟩
      else ⟨eval1, r1.pv, b2, r1.st⟩
    let PV1 := if s.value > α then m :: s.pv else PV
    let bestEval1 := max bestEval s.value
    let α1 := max α s.value
    if β ≤ α1 then
      ⟨bestEval1, PV1, s.board,
        { s.st with killers := updateKillerMoves m depth s.st.killers }⟩
    else
      ab2Loop O mopUpFlag rec depth isPV numMoves rest (i + 1) s.board α1 β
        bestEval1 PV1 leftMost1 ext.2 s.st

/-- The move-loop phase of the negamax `alphaBeta` (`search.hpp:1121`):
order the moves, run the loop from `bestEval = −INF`, and — only when the
final PV is non-empty — store `(bestEval, depth)` in the transposition table
and `PV[0]` in the hash-move table, both keyed by the current board hash. -/
def ab2MovePhase (O : Oracle B M) [DecidableEq M] (mopUpFlag : Bool)
    (prevPV : List M) (gmd : Int)
    (rec : B → Int → Int → Int → List M → Bool → Int → SearchState2 M →
      AB2Out B M)
    (b : B) (depth α β : Int) (isPV : Bool) (pv0 : List M) (leftMost : Bool)
    (extension : Int) (st : SearchState2 M) : AB2Out B M :=
  let om := orderedMoves2 O b depth prevPV leftMost gmd st
  let lr := ab2Loop O mopUpFlag rec depth isPV om.1.length om.1 0 om.2 α β
    (-INF) pv0 leftMost extension st
  match lr.pv with
  | [] => ⟨lr.value, lr.pv, lr.board, lr.st⟩
  | p0 :: _ =>
    ⟨lr.value, lr.pv, lr.board,
      { lr.st with
        tt := ttStore lr.st.tt (O.hash lr.board) lr.value depth,
        hashMove := hmStore lr.st.hashMove (O.hash lr.board) p0 }⟩

/-- The body of the negamax `alphaBeta` after the game-over check, the
transposition probe and the horizon test (`search.hpp:1075` onwards): node
classification (`isPV := α < β − 1`), futility pruning (`depth < 3`, margin
`depth·130`) and razoring (`depth ≤ 3`, non-PV, margin `300 + (depth−1)·60`)
both gated by `pruningCondition2`, null-move pruning (`depth ≥ 4`, not
endgame, not leftmost, not in check, reduction `3 + depth/4`, zero window
`[−β, −β+1]`, returning `β` on a fail-high null score), then the move loop and
the conditional table/hash-move store when the PV is non-empty. -/
def ab2Main (O : Oracle B M) [DecidableEq M] (mopUpFlag : Bool)
    (prevPV : List M) (gmd : Int)
    (rec : B → Int → Int → Int → List M → Bool → Int → SearchState2 M →
      AB2Out B M)
    (b : B) (depth α β : Int) (qd : Nat) (pv0 : List M) (leftMost : Bool)
    (extension : Int) (st : SearchState2 M) : AB2Out B M :=
  let white := O.sideWhite b
  let endGameFlag := decide (O.gamePhase b ≤ 12)
  let color : Int := if white then 1 else -1
  let isPV := decide (α < β - 1)
  let standPat := color * O.evaluate b
  let pc := pruningCondition2 (O.inCheck b) mopUpFlag endGameFlag α
  if depth < 3 ∧ pc = true ∧ standPat - depth * 130 > β then
    ⟨standPat - depth * 130, pv0, b, st⟩
  else if depth ≤ 3 ∧ pc = true ∧ ¬ (isPV = true) ∧
      standPat + (300 + (depth - 1) * 60) < α then
    let r := quiescence2 O qd b α β
    ⟨r.1, pv0, r.2, st⟩
  else
    let n : Option Int × B × SearchState2 M :=
      if depth ≥ 4 ∧ ¬ (endGameFlag = true) ∧ ¬ (leftMost = true) ∧
          ¬ (O.inCheck b = true) then
        let reduction := 3 + depth / 4
        let bn := O.makeNullMove b
        let rn := rec bn (depth - reduction) (-β) (-β + 1) [] false extension
          st
        let nullEval := -rn.value
        let b1 := O.unmakeNullMove rn.board
        if nullEval ≥ β then (some β, b1, rn.st) else (none, b1, rn.st)
      else (none, b, st)
    match n with
    | (some v, b1, st1) => ⟨v, pv0, b1, st1⟩
    | (none, b1, st1) =>
      ab2MovePhase O mopUpFlag prevPV gmd rec b1 depth α β isPV pv0 leftMost
        extension st1

/-- The negamax `alphaBeta` (`search.hpp:1023`), fuel-embedded like
`alphaBeta1`.  Order of business, as in the source: game-over check first
(checkmate returns `color * (INF/2 − (1000 − depth))` for
`color = ±1` by side to move, draws return 0), then the lower-bound
transposition probe with immediate return on `storedEval ≥ β`, then the
horizon test (quiescence + store at depth 0), then `ab2Main`.  The
by-reference `PV` argument's initial contents are `pv0`; paths that do not
touch `PV` return it unchanged. -/
def alphaBeta2 (O : Oracle B M) [DecidableEq M] (mopUpFlag : Bool)
    (prevPV : List M) (gmd : Int) :
    Nat → B → Int → Int → Int → Nat → List M → Bool → Int →
      SearchState2 M → AB2Out B M
  | 0, b, _, _, _, _, pv0, _, _, st => ⟨0, pv0, b, st⟩
  | f + 1, b, depth, α, β, qd, pv0, leftMost, extension, st =>
    let white := O.sideWhite b
    let color : Int := if white then 1 else -1
    match O.isGameOver b with
    | .NONE =>
      let hash := O.hash b
      match ttProbe2 st.tt hash depth β with
      | some e => ⟨e, pv0, b, st⟩
      | none =>
        if depth ≤ 0 then
          let r := quiescence2 O qd b α β
          ⟨r.1, pv0, r.2, { st with tt := ttStore st.tt hash r.1 0 }⟩
        else
          ab2Main O mopUpFlag prevPV gmd
            (fun b2 d2 α2 β2 pv2 lm2 ext2 st2 =>
              alphaBeta2 O mopUpFlag prevPV gmd f b2 d2 α2 β2 qd pv2 lm2 ext2
                st2)
            b depth α β qd pv0 leftMost extension st
    | .CHECKMATE => ⟨color * (INF / 2 - (1000 - depth)), pv0, b, st⟩
    | _ => ⟨0, pv0, b, st⟩

theorem pruningCondition2_false (inChk mopUpFlag endGameFlag : Bool)
    (α : Int) : pruningCondition2 inChk mopUpFlag endGameFlag α = false := by
  have hINF : INF / 4 = (25000 : Int) := by norm_num [INF]
  have h : decide ((if α = 0 then (1 : Int) else 0) > INF / 4) = false := by
    rw [hINF]
    by_cases hα : α = 0
    · rw [if_pos hα]; decide
    · rw [if_neg hα]; decide
  unfold pruningCondition2
  rw [h, Bool.and_false]

/-- The empty initial state of the negamax search. -/
def emptyState2 : SearchState2 Nat := ⟨[], [], fun _ => []⟩

/-- A concrete oracle whose single position has one legal (quiet) move and
static evaluation 1000, white to move, not in check, not endgame, no mop-up,
game not over — exactly the futility-pruning situation of C5. -/
def futilOracle : Oracle Nat Nat :=
  { toyOracle with evaluate := fun _ => 1000, legalMoves := fun _ => [0] }

/-- C5: the futility-pruning guard is dead code.  The C++ guard
`!alpha > INF/4` (`search.hpp:1080`) compares the bool `!alpha` — promoted to
the integer 0 or 1 — against 25000, so `pruningCondition2` is false for every
input and futility pruning (whose claimed trigger is
`stand_pat − depth·130 > β` with `α` below `INF/4`) can never fire.  At the
concrete failing input — depth 2, window `[−100, 0]`, stand-pat 1000, not in
check, no mop-up, not endgame, so `stand_pat − 260 = 740 > β` — the claim
requires the call to return 740, but the search returns 1000 from the move
loop instead. -/
theorem futility_pruning_never_fires :
    (∀ (inChk mopUpFlag endGameFlag : Bool) (α : Int),
      pruningCondition2 inChk mopUpFlag endGameFlag α = false) ∧
    (alphaBeta2 futilOracle false [] 2 3 0 2 (-100) 0 0 [] false 4
        emptyState2).value = 1000 ∧
    (alphaBeta2 futilOracle false [] 2 3 0 2 (-100) 0 0 [] false 4
        emptyState2).value ≠ 1000 - 2 * 130 := by
  refine ⟨fun i mf e α => pruningCondition2_false i mf e α, ?_, ?_⟩
  · rfl
  · decide

/-- C6: null-move pruning in the negamax search.  When `depth ≥ 4`, the side
to move is not in check, the node is not on the leftmost line and the game
phase is not endgame (and the node is a regular interior node: game not over,
no transposition cutoff), the engine makes a null move, searches it at depth
reduced by `R = 3 + depth/4` with the zero window `[−β, −β+1]`, unmakes the
null move, and returns `β` whenever the negated null-move score is ≥ β. -/
theorem alphaBeta2_null_move_pruning (O : Oracle B M) [DecidableEq M]
    (mopUpFlag : Bool) (prevPV : List M) (gmd : Int) (f : Nat) (b : B)
    (depth α β : Int) (qd : Nat) (pv0 : List M) (extension : Int)
    (st : SearchState2 M)
    (hgo : O.isGameOver b = .NONE)
    (htt : ttProbe2 st.tt (O.hash b) depth β = none)
    (hd : depth ≥ 4)
    (heg : ¬ (O.gamePhase b ≤ 12))
    (hchk : O.inCheck b = false)
    (hnull : -(alphaBeta2 O mopUpFlag prevPV gmd f (O.makeNullMove b)
        (depth - (3 + depth / 4)) (-β) (-β + 1) qd [] false extension
        st).value ≥ β) :
    (alphaBeta2 O mopUpFlag prevPV gmd (f + 1) b depth α β qd pv0 false
      extension st).value = β := by
  have hdle : ¬ (depth ≤ 0) := by omega
  have heg' : decide (O.gamePhase b ≤ 12) = false := by
    simp [heg]
  simp only [alphaBeta2, hgo, htt, hdle, if_false]
  unfold ab2Main
  simp only [pruningCondition2_false, Bool.false_eq_true, false_and,
    and_false, if_false, heg', hchk, not_false_iff, and_true]
  rw [if_pos hd]
  rw [if_pos hnull]

/-- Witness for `alphaBeta2_null_move_pruning`: depth 4, window
`[−700, −600]`, a quiet position with static evaluation 500; the null search
at depth `4 − (3 + 4/4) = 0` scores −500 ≥ β = −600, so the call returns β. -/
theorem alphaBeta2_null_move_pruning_witness :
    (alphaBeta2 toyOracle false [] 0 2 0 4 (-700) (-600) 0 [] false 4
      emptyState2).value = -600 :=
  alphaBeta2_null_move_pruning toyOracle false [] 0 1 0 4 (-700) (-600) 0 []
    4 emptyState2 rfl rfl (by norm_num) (by decide) rfl (by decide)

/-! ## Board restoration (frame property)

The C++ search mutates the board in place; every `makeMove`/`makeNullMove` is
paired with the corresponding unmake on the same path.  Under the library
contract that unmake undoes make, every search function returns the board it
was given. -/

theorem q1Candidates_board (O : Oracle B M)
    (hmk : ∀ (b : B) (m : M), O.unmakeMove (O.makeMove b m) m = b) :
    ∀ (l : List M) (b : B), (q1Candidates O l b).2 = b
  | [], b => rfl
  | m :: rest, b => by
    unfold q1Candidates
    simp only [hmk]
    split
    · exact q1Candidates_board O hmk rest b
    · exact q1Candidates_board O hmk rest b

theorem q1Loop_board (O : Oracle B M)
    (hmk : ∀ (b : B) (m : M), O.unmakeMove (O.makeMove b m) m = b)
    (rec : B → Int → Int → Int × B)
    (hrec : ∀ (b : B) (α β : Int), (rec b α β).2 = b)
    (white : Bool) (standPat : Int) :
    ∀ (l : List (M × Int)) (b : B) (α β : Int),
      (q1Loop O rec white standPat l b α β).2 = b
  | [], _, _, _ => rfl
  | (m, p) :: rest, b, α, β => by
    unfold q1Loop
    split
    · exact q1Loop_board O hmk rec hrec white standPat rest b α β
    · split
      · exact q1Loop_board O hmk rec hrec white standPat rest b α β
      · simp only [hrec, hmk]
        split
        · split
          · rfl
          · exact q1Loop_board O hmk rec hrec white standPat rest b _ _
        · split
          · rfl
          · exact q1Loop_board O hmk rec hrec white standPat rest b _ _

theorem quiescence1_board (O : Oracle B M)
    (hmk : ∀ (b : B) (m : M), O.unmakeMove (O.makeMove b m) m = b) :
    ∀ (d : Nat) (b : B) (α β : Int), (quiescence1 O d b α β).2 = b
  | 0, _, _, _ => rfl
  | d + 1, b, α, β => by
    simp only [quiescence1]
    split
    · rfl
    · split
      · rfl
      · rw [q1Loop_board O hmk _ (fun b2 α2 β2 =>
          quiescence1_board O hmk d b2 α2 β2) _ _ _ _ _ _,
          q1Candidates_board O hmk _ _]

theorem pm1Classify_board (O : Oracle B M) [DecidableEq M]
    (hmk : ∀ (b : B) (m : M), O.unmakeMove (O.makeMove b m) m = b)
    (depth : Int) (st : SearchState1 M) (white : Bool) :
    ∀ (l : List M) (b : B), (pm1Classify O depth st white l b).2 = b
  | [], _ => rfl
  | m :: rest, b => by
    simp only [pm1Classify, hmk]
    split
    · exact pm1Classify_board O hmk depth st white rest b
    · split
      · exact pm1Classify_board O hmk depth st white rest b
      · split
        · exact pm1Classify_board O hmk depth st white rest b
        · split
          · exact pm1Classify_board O hmk depth st white rest b
          · exact pm1Classify_board O hmk depth st white rest b

theorem prioritizedMoves1_board (O : Oracle B M) [DecidableEq M]
    (hmk : ∀ (b : B) (m : M), O.unmakeMove (O.makeMove b m) m = b)
    (b : B) (depth : Int) (st : SearchState1 M) :
    (prioritizedMoves1 O b depth st).2 = b := by
  simp only [prioritizedMoves1]
  exact pm1Classify_board O hmk depth st (O.sideWhite b) (O.legalMoves b) b

theorem ab1Loop_board (O : Oracle B M)
    (hmk : ∀ (b : B) (m : M), O.unmakeMove (O.makeMove b m) m = b)
    (rec : B → Int → Int → Int → SearchState1 M → AB1Out B M)
    (hrec : ∀ (b : B) (d α β : Int) (st : SearchState1 M),
      (rec b d α β st).board = b)
    (white : Bool) (depth : Int) :
    ∀ (l : List (M × Int)) (i : Nat) (b : B) (α β bestEval : Int)
      (PV : List M) (st : SearchState1 M),
      (ab1Loop O rec white depth l i b α β bestEval PV st).board = b
  | [], _, _, _, _, _, _, _ => rfl
  | (m, p) :: rest, i, b, α, β, bestEval, PV, st => by
    have ih := ab1Loop_board O hmk rec hrec white depth rest
    simp only [ab1Loop, ab1Iter, hrec, hmk, apply_ite AB1Out.board, ite_self,
      ih]

theorem ab1MoveLoop_board (O : Oracle B M) [DecidableEq M]
    (hmk : ∀ (b : B) (m : M), O.unmakeMove (O.makeMove b m) m = b)
    (rec : B → Int → Int → Int → SearchState1 M → AB1Out B M)
    (hrec : ∀ (b : B) (d α β : Int) (st : SearchState1 M),
      (rec b d α β st).board = b)
    (b : B) (depth α β : Int) (st : SearchState1 M) (white : Bool) :
    (ab1MoveLoop O rec b depth α β st white).board = b := by
  simp only [ab1MoveLoop, ab1Loop_board O hmk rec hrec,
    prioritizedMoves1_board O hmk]

theorem ab1Razor_board (O : Oracle B M) [DecidableEq M]
    (hmk : ∀ (b : B) (m : M), O.unmakeMove (O.makeMove b m) m = b)
    (rec : B → Int → Int → Int → SearchState1 M → AB1Out B M)
    (hrec : ∀ (b : B) (d α β : Int) (st : SearchState1 M),
      (rec b d α β st).board = b)
    (b : B) (depth α β : Int) (qd : Nat) (st : SearchState1 M)
    (white : Bool) : (ab1Razor O rec b depth α β qd st white).board = b := by
  simp only [ab1Razor, quiescence1_board O hmk]
  split
  · split
    · rfl
    · split
      · rfl
      · exact ab1MoveLoop_board O hmk rec hrec b depth α β st white
  · exact ab1MoveLoop_board O hmk rec hrec b depth α β st white

theorem ab1Main_board (O : Oracle B M) [DecidableEq M]
    (hmk : ∀ (b : B) (m : M), O.unmakeMove (O.makeMove b m) m = b)
    (hnl : ∀ b : B, O.unmakeNullMove (O.makeNullMove b) = b)
    (rec : B → Int → Int → Int → SearchState1 M → AB1Out B M)
    (hrec : ∀ (b : B) (d α β : Int) (st : SearchState1 M),
      (rec b d α β st).board = b)
    (b : B) (depth α β : Int) (qd : Nat) (st : SearchState1 M) :
    (ab1Main O rec b depth α β qd st).board = b := by
  unfold ab1Main
  by_cases hd0 : depth ≤ 0
  · rw [if_pos hd0]
    simp only [quiescence1_board O hmk]
  · rw [if_neg hd0]
    by_cases hn : ¬ (O.isEndGame b = true) ∧ depth ≥ 6 ∧
        ¬ (O.inCheck b = true)
    · rw [if_pos hn]
      have hrn : (if O.sideWhite b then
          rec (O.makeNullMove b) (depth - 2) (β - 1) β st
          else rec (O.makeNullMove b) (depth - 2) α (α + 1) st).board =
          O.makeNullMove b := by
        split
        · exact hrec _ _ _ _ _
        · exact hrec _ _ _ _ _
      simp only [hrn, hnl]
      generalize (if O.sideWhite b = true then
          rec (O.makeNullMove b) (depth - 2) (β - 1) β st
          else rec (O.makeNullMove b) (depth - 2) α (α + 1) st) = rn0
      split
      · rename_i v1 b1 st1 heq
        split at heq
        · simp only [Prod.mk.injEq] at heq
          rw [← heq.2.1]
        · simp only [Prod.mk.injEq] at heq
          exact absurd heq.1 (by simp)
      · rename_i b1 st1 heq
        split at heq
        · simp only [Prod.mk.injEq] at heq
          exact absurd heq.1 (by simp)
        · simp only [Prod.mk.injEq] at heq
          rw [← heq.2.1, ← heq.2.2]
          exact ab1Razor_board O hmk rec hrec b depth α β qd rn0.st
            (O.sideWhite b)
    · rw [if_neg hn]
      exact ab1Razor_board O hmk rec hrec b depth α β qd st _

theorem alphaBeta1_board (O : Oracle B M) [DecidableEq M]
    (hmk : ∀ (b : B) (m : M), O.unmakeMove (O.makeMove b m) m = b)
    (hnl : ∀ b : B, O.unmakeNullMove (O.makeNullMove b) = b) :
    ∀ (f : Nat) (b : B) (depth α β : Int) (qd : Nat) (st : SearchState1 M),
      (alphaBeta1 O f b depth α β qd st).board = b
  | 0, _, _, _, _, _, _ => rfl
  | f + 1, b, depth, α, β, qd, st => by
    simp only [alphaBeta1]
    split
    · split
      · rfl
      · exact ab1Main_board O hmk hnl _
          (fun b2 d2 α2 β2 st2 => alphaBeta1_board O hmk hnl f b2 d2 α2 β2 qd
            st2) b depth α β qd st
    · rfl
    · rfl

theorem lateMoveReduction2_board (O : Oracle B M)
    (hmk : ∀ (b : B) (m : M), O.unmakeMove (O.makeMove b m) m = b)
    (mopUpFlag : Bool) (b : B) (m : M) (i : Nat) (depth : Int)
    (isPV : Bool) : (lateMoveReduction2 O mopUpFlag b m i depth isPV).2 = b := by
  simp only [lateMoveReduction2, hmk]

theorem om2Classify_board (O : Oracle B M) [DecidableEq M]
    (hmk : ∀ (b : B) (m : M), O.unmakeMove (O.makeMove b m) m = b)
    (depth : Int) (st : SearchState2 M) (prevPV : List M) (leftMost : Bool)
    (gmd : Int) (hash : Nat) :
    ∀ (l : List M) (b : B),
      (om2Classify O depth st prevPV leftMost gmd hash l b).2 = b
  | [], _ => rfl
  | m :: rest, b => by
    have ih := om2Classify_board O hmk depth st prevPV leftMost gmd hash rest
    simp only [om2Classify, hmk]
    split
    · exact ih b
    · split
      · exact ih b
      · split
        · exact ih b
        · split
          · exact ih b
          · split
            · exact ih b
            · split
              · exact ih b
              · exact ih b

theorem orderedMoves2_board (O : Oracle B M) [DecidableEq M]
    (hmk : ∀ (b : B) (m : M), O.unmakeMove (O.makeMove b m) m = b)
    (b : B) (depth : Int) (prevPV : List M) (leftMost : Bool) (gmd : Int)
    (st : SearchState2 M) :
    (orderedMoves2 O b depth prevPV leftMost gmd st).2 = b := by
  simp only [orderedMoves2]
  exact om2Classify_board O hmk depth st prevPV leftMost gmd (O.hash b)
    (O.legalMoves b) b

theorem q2Loop_board (O : Oracle B M)
    (hmk : ∀ (b : B) (m : M), O.unmakeMove (O.makeMove b m) m = b)
    (rec : B → Int → Int → Int × B)
    (hrec : ∀ (b : B) (α β : Int), (rec b α β).2 = b) :
    ∀ (l : List (M × Int)) (b : B) (α β bestScore : Int),
      (q2Loop O rec l b α β bestScore).2 = b
  | [], _, _, _, _ => rfl
  | (m, p) :: rest, b, α, β, bestScore => by
    have ih := q2Loop_board O hmk rec hrec rest
    simp only [q2Loop, hrec, hmk]
    split
    · rfl
    · exact ih b _ _ _

theorem quiescence2_board (O : Oracle B M)
    (hmk : ∀ (b : B) (m : M), O.unmakeMove (O.makeMove b m) m = b) :
    ∀ (d : Nat) (b : B) (α β : Int), (quiescence2 O d b α β).2 = b
  | 0, _, _, _ => rfl
  | d + 1, b, α, β => by
    simp only [quiescence2]
    split
    · split
      · rfl
      · exact q2Loop_board O hmk _
          (fun b2 α2 β2 => quiescence2_board O hmk d b2 α2 β2) _ b _ _ _
    · split
      · rfl
      · exact q2Loop_board O hmk _
          (fun b2 α2 β2 => quiescence2_board O hmk d b2 α2 β2) _ b _ _ _

theorem ab2Loop_board (O : Oracle B M) [DecidableEq M]
    (hmk : ∀ (b : B) (m : M), O.unmakeMove (O.makeMove b m) m = b)
    (mopUpFlag : Bool)
    (rec : B → Int → Int → Int → List M → Bool → Int → SearchState2 M →
      AB2Out B M)
    (hrec : ∀ (b : B) (d α β : Int) (pv : List M) (lm : Bool) (ext : Int)
      (st : SearchState2 M), (rec b d α β pv lm ext st).board = b)
    (depth : Int) (isPV : Bool) (numMoves : Nat) :
    ∀ (l : List (M × Int)) (i : Nat) (b : B) (α β bestEval : Int)
      (PV : List M) (leftMost : Bool) (extension : Int)
      (st : SearchState2 M),
      (ab2Loop O mopUpFlag rec depth isPV numMoves l i b α β bestEval PV
        leftMost extension st).board = b
  | [], _, _, _, _, _, _, _, _, _ => rfl
  | (m, p) :: rest, i, b, α, β, bestEval, PV, leftMost, extension, st => by
    have ih := ab2Loop_board O hmk mopUpFlag rec hrec depth isPV numMoves rest
    simp only [ab2Loop, hrec, hmk, lateMoveReduction2_board O hmk,
      apply_ite AB2Out.board, ite_self, ih]

theorem ab2MovePhase_board (O : Oracle B M) [DecidableEq M]
    (hmk : ∀ (b : B) (m : M), O.unmakeMove (O.makeMove b m) m = b)
    (mopUpFlag : Bool) (prevPV : List M) (gmd : Int)
    (rec : B → Int → Int → Int → List M → Bool → Int → SearchState2 M →
      AB2Out B M)
    (hrec : ∀ (b : B) (d α β : Int) (pv : List M) (lm : Bool) (ext : Int)
      (st : SearchState2 M), (rec b d α β pv lm ext st).board = b)
    (b : B) (depth α β : Int) (isPV : Bool) (pv0 : List M) (leftMost : Bool)
    (extension : Int) (st : SearchState2 M) :
    (ab2MovePhase O mopUpFlag prevPV gmd rec b depth α β isPV pv0 leftMost
      extension st).board = b := by
  have hlr := ab2Loop_board O hmk mopUpFlag rec hrec depth isPV
  have hom := orderedMoves2_board O hmk b depth prevPV leftMost gmd st
  simp only [ab2MovePhase]
  split
  · simp only [hlr, hom]
  · simp only [hlr, hom]

theorem ab2Main_board (O : Oracle B M) [DecidableEq M]
    (hmk : ∀ (b : B) (m : M), O.unmakeMove (O.makeMove b m) m = b)
    (hnl : ∀ b : B, O.unmakeNullMove (O.makeNullMove b) = b)
    (mopUpFlag : Bool) (prevPV : List M) (gmd : Int)
    (rec : B → Int → Int → Int → List M → Bool → Int → SearchState2 M →
      AB2Out B M)
    (hrec : ∀ (b : B) (d α β : Int) (pv : List M) (lm : Bool) (ext : Int)
      (st : SearchState2 M), (rec b d α β pv lm ext st).board = b)
    (b : B) (depth α β : Int) (qd : Nat) (pv0 : List M) (leftMost : Bool)
    (extension : Int) (st : SearchState2 M) :
    (ab2Main O mopUpFlag prevPV gmd rec b depth α β qd pv0 leftMost extension
      st).board = b := by
  simp only [ab2Main, pruningCondition2_false, Bool.false_eq_true, false_and,
    and_false, if_false, hrec, hnl]
  by_cases hn : depth ≥ 4 ∧ ¬ (decide (O.gamePhase b ≤ 12) = true) ∧
      ¬ (leftMost = true) ∧ ¬ (O.inCheck b = true)
  · rw [if_pos hn]
    generalize rec (O.makeNullMove b) (depth - (3 + depth / 4)) (-β)
      (-β + 1) [] false extension st = rn0
    split
    · rename_i v1 b1 st1 heq
      split at heq
      · simp only [Prod.mk.injEq] at heq
        rw [← heq.2.1]
      · simp only [Prod.mk.injEq] at heq
        exact absurd heq.1 (by simp)
    · rename_i b1 st1 heq
      split at heq
      · simp only [Prod.mk.injEq] at heq
        exact absurd heq.1 (by simp)
      · simp only [Prod.mk.injEq] at heq
        rw [← heq.2.1, ← heq.2.2]
        exact ab2MovePhase_board O hmk mopUpFlag prevPV gmd rec hrec b
          depth α β _ pv0 leftMost extension rn0.st
  · rw [if_neg hn]
    exact ab2MovePhase_board O hmk mopUpFlag prevPV gmd rec hrec b depth
      α β _ pv0 leftMost extension st

theorem alphaBeta2_board (O : Oracle B M) [DecidableEq M]
    (hmk : ∀ (b : B) (m : M), O.unmakeMove (O.makeMove b m) m = b)
    (hnl : ∀ b : B, O.unmakeNullMove (O.makeNullMove b) = b)
    (mopUpFlag : Bool) (prevPV : List M) (gmd : Int) :
    ∀ (f : Nat) (b : B) (depth α β : Int) (qd : Nat) (pv0 : List M)
      (lm : Bool) (ext : Int) (st : SearchState2 M),
      (alphaBeta2 O mopUpFlag prevPV gmd f b depth α β qd pv0 lm ext
        st).board = b
  | 0, _, _, _, _, _, _, _, _, _ => rfl
  | f + 1, b, depth, α, β, qd, pv0, lm, ext, st => by
    simp only [alphaBeta2]
    split
    · split
      · rfl
      · split
        · simp only [quiescence2_board O hmk]
        · exact ab2Main_board O hmk hnl mopUpFlag prevPV gmd _
            (fun b2 d2 α2 β2 pv2 lm2 ext2 st2 =>
              alphaBeta2_board O hmk hnl mopUpFlag prevPV gmd f b2 d2 α2 β2
                qd pv2 lm2 ext2 st2) b depth α β qd pv0 lm ext st
    · rfl
    · rfl

/-- C8: every search invocation restores the board it was given.  Under the
move-generation library's contract that `unmakeMove` undoes `makeMove` and
`unmakeNullMove` undoes `makeNullMove`, every `quiescence` and every
`alphaBeta` call — in both the `search.cpp` minimax and the `search.hpp`
negamax — returns the board bitwise identical to the one passed in (every
make performed during the call is matched by the corresponding unmake), and
in particular the root hash is unchanged. -/
theorem search_restores_board (O : Oracle B M) [DecidableEq M]
    (hmk : ∀ (b : B) (m : M), O.unmakeMove (O.makeMove b m) m = b)
    (hnl : ∀ b : B, O.unmakeNullMove (O.makeNullMove b) = b) :
    (∀ (d : Nat) (b : B) (α β : Int), (quiescence1 O d b α β).2 = b) ∧
    (∀ (f : Nat) (b : B) (depth α β : Int) (qd : Nat)
      (st : SearchState1 M),
      (alphaBeta1 O f b depth α β qd st).board = b ∧
      O.hash (alphaBeta1 O f b depth α β qd st).board = O.hash b) ∧
    (∀ (d : Nat) (b : B) (α β : Int), (quiescence2 O d b α β).2 = b) ∧
    (∀ (mopUpFlag : Bool) (prevPV : List M) (gmd : Int) (f : Nat) (b : B)
      (depth α β : Int) (qd : Nat) (pv0 : List M) (lm : Bool) (ext : Int)
      (st : SearchState2 M),
      (alphaBeta2 O mopUpFlag prevPV gmd f b depth α β qd pv0 lm ext
        st).board = b) := by
  refine ⟨fun d b α β => quiescence1_board O hmk d b α β, ?_,
    fun d b α β => quiescence2_board O hmk d b α β,
    fun mf pv g f b d α β qd pv0 lm e st =>
      alphaBeta2_board O hmk hnl mf pv g f b d α β qd pv0 lm e st⟩
  intro f b depth α β qd st
  have h := alphaBeta1_board O hmk hnl f b depth α β qd st
  exact ⟨h, by rw [h]⟩

/-- Witness for `search_restores_board` on a concrete oracle whose make and
unmake trivially satisfy the round-trip contract. -/
theorem search_restores_board_witness :
    (quiescence1 toyOracle 2 7 0 10).2 = 7 ∧
    (alphaBeta1 toyOracle 3 7 2 (-INF) INF 0 emptyState1).board = 7 ∧
    (alphaBeta2 toyOracle false [] 0 3 7 2 (-INF) INF 0 [] false 4
      emptyState2).board = 7 := by
  have h := search_restores_board toyOracle (fun b m => rfl) (fun b => rfl)
  exact ⟨h.1 2 7 0 10, (h.2.1 3 7 2 (-INF) INF 0 emptyState1).1,
    h.2.2.2 false [] 0 3 7 2 (-INF) INF 0 [] false 4 emptyState2⟩

/-! ## Score bounds

For claim C1 we need that the search never returns the window sentinels
`±INF`: assuming the external evaluator stays within ±30000 centipawns (its
piece values total well below that), every `quiescence1` value lies in
`[min β (−30000), max α 30000]` and every `alphaBeta1` value in
`[−(INF−1), INF−1]`, and the transposition tables only ever hold values in
that range. -/


theorem q1LoopW_bounds (O : Oracle B M) (rec : B → Int → Int → Int × B)
    (hrec : ∀ (b : B) (α β : Int), α < β →
      min β (-30000) ≤ (rec b α β).1 ∧ (rec b α β).1 ≤ max α 30000)
    (standPat : Int) :
    ∀ (l : List (M × Int)) (b : B) (α β : Int), α < β → -30000 ≤ α →
      min β (-30000) ≤ (q1Loop O rec true standPat l b α β).1 ∧
      (q1Loop O rec true standPat l b α β).1 ≤ max α 30000
  | [], b, α, β, hαβ, hα => by
    simp only [q1Loop]
    constructor <;> simp <;> omega
  | (m, p) :: rest, b, α, β, hαβ, hα => by
    simp only [q1Loop]
    by_cases hd : standPat + p + 400 < α
    · rw [if_pos ⟨trivial, hd⟩]
      exact q1LoopW_bounds O rec hrec standPat rest b α β hαβ hα
    · rw [if_neg (by simp [hd]), if_neg (by simp)]
      have hs := hrec (O.makeMove b m) α β hαβ
      by_cases hsb : (rec (O.makeMove b m) α β).1 ≥ β
      · rw [if_pos trivial, if_pos hsb]
        constructor <;> simp <;> omega
      · rw [if_pos trivial, if_neg hsb]
        have hnext := q1LoopW_bounds O rec hrec standPat rest
          (O.unmakeMove (rec (O.makeMove b m) α β).2 m)
          (max α (rec (O.makeMove b m) α β).1) β (by omega) (by omega)
        constructor <;> omega

theorem q1LoopB_bounds (O : Oracle B M) (rec : B → Int → Int → Int × B)
    (hrec : ∀ (b : B) (α β : Int), α < β →
      min β (-30000) ≤ (rec b α β).1 ∧ (rec b α β).1 ≤ max α 30000)
    (standPat : Int) :
    ∀ (l : List (M × Int)) (b : B) (α β : Int), α < β → β ≤ 30000 →
      min β (-30000) ≤ (q1Loop O rec false standPat l b α β).1 ∧
      (q1Loop O rec false standPat l b α β).1 ≤ max α 30000
  | [], b, α, β, hαβ, hβ => by
    simp only [q1Loop]
    constructor <;> simp <;> omega
  | (m, p) :: rest, b, α, β, hαβ, hβ => by
    simp only [q1Loop]
    rw [if_neg (by simp)]
    by_cases hd : standPat - p - 400 > β
    · rw [if_pos ⟨by simp, hd⟩]
      exact q1LoopB_bounds O rec hrec standPat rest b α β hαβ hβ
    · rw [if_neg (by simp [hd])]
      have hs := hrec (O.makeMove b m) α β hαβ
      by_cases hsa : (rec (O.makeMove b m) α β).1 ≤ α
      · rw [if_neg (by simp), if_pos hsa]
        constructor <;> simp <;> omega
      · rw [if_neg (by simp), if_neg hsa]
        have hnext := q1LoopB_bounds O rec hrec standPat rest
          (O.unmakeMove (rec (O.makeMove b m) α β).2 m)
          α (min β (rec (O.makeMove b m) α β).1) (by omega) (by omega)
        constructor <;> omega

theorem quiescence1_bounds (O : Oracle B M)
    (hev : ∀ b : B, -30000 ≤ O.evaluate b ∧ O.evaluate b ≤ 30000) :
    ∀ (d : Nat) (b : B) (α β : Int), α < β →
      min β (-30000) ≤ (quiescence1 O d b α β).1 ∧
      (quiescence1 O d b α β).1 ≤ max α 30000
  | 0, b, α, β, hαβ => by
    unfold quiescence1
    have := hev b
    constructor <;> simp <;> omega
  | d + 1, b, α, β, hαβ => by
    simp only [quiescence1]
    have hsp := hev b
    have hrec : ∀ (b2 : B) (α2 β2 : Int), α2 < β2 →
        min β2 (-30000) ≤ (quiescence1 O d b2 α2 β2).1 ∧
        (quiescence1 O d b2 α2 β2).1 ≤ max α2 30000 :=
      fun b2 α2 β2 h2 => quiescence1_bounds O hev d b2 α2 β2 h2
    cases hw : O.sideWhite b with
    | true =>
      by_cases hb1 : O.evaluate b ≥ β
      · rw [if_pos ⟨rfl, hb1⟩]
        constructor <;> simp <;> omega
      · rw [if_neg (by simp [hb1]), if_neg (by simp)]
        by_cases ha1 : O.evaluate b > α
        · rw [if_pos ⟨rfl, ha1⟩, if_neg (by simp)]
          have hl := q1LoopW_bounds O
            (fun b2 α2 β2 => quiescence1 O d b2 α2 β2) hrec (O.evaluate b)
            (sortDesc (q1Candidates O (O.legalMoves b) b).1)
            (q1Candidates O (O.legalMoves b) b).2 (O.evaluate b) β
            (by omega) (by omega)
          constructor <;> omega
        · rw [if_neg (by simp [ha1]), if_neg (by simp)]
          have hl := q1LoopW_bounds O
            (fun b2 α2 β2 => quiescence1 O d b2 α2 β2) hrec (O.evaluate b)
            (sortDesc (q1Candidates O (O.legalMoves b) b).1)
            (q1Candidates O (O.legalMoves b) b).2 α β
            (by omega) (by omega)
          constructor <;> omega
    | false =>
      rw [if_neg (by simp)]
      by_cases hb1 : O.evaluate b ≤ α
      · rw [if_pos ⟨by simp, hb1⟩]
        constructor <;> simp <;> omega
      · rw [if_neg (by simp [hb1]), if_neg (by simp)]
        by_cases ha1 : O.evaluate b < β
        · rw [if_pos ⟨by simp, ha1⟩]
          have hl := q1LoopB_bounds O
            (fun b2 α2 β2 => quiescence1 O d b2 α2 β2) hrec (O.evaluate b)
            (sortDesc (q1Candidates O (O.legalMoves b) b).1)
            (q1Candidates O (O.legalMoves b) b).2 α (O.evaluate b)
            (by omega) (by omega)
          constructor <;> omega
        · rw [if_neg (by simp [ha1])]
          have hl := q1LoopB_bounds O
            (fun b2 α2 β2 => quiescence1 O d b2 α2 β2) hrec (O.evaluate b)
            (sortDesc (q1Candidates O (O.legalMoves b) b).1)
            (q1Candidates O (O.legalMoves b) b).2 α β
            (by omega) (by omega)
          constructor <;> omega

/-- Every value stored in a transposition table lies strictly inside the
`±INF` window sentinels. -/
def ttOK (t : TransTable) : Prop :=
  ∀ e ∈ t, -(INF - 1) ≤ e.2.1 ∧ e.2.1 ≤ INF - 1

/-- Both tables of the `search.cpp` search state are in range. -/
def stOK {M : Type} (st : SearchState1 M) : Prop :=
  ttOK st.lower ∧ ttOK st.upper

theorem ttFind_mem (t : TransTable) (h : Nat) (ed : Int × Int)
    (hf : ttFind t h = some ed) : ∃ k, (k, ed) ∈ t := by
  unfold ttFind at hf
  cases hf2 : t.find? (fun x => x.1 == h) with
  | none =>
    rw [hf2] at hf
    exact absurd (show (none : Option (Int × Int)) = some ed from hf) (by simp)
  | some x =>
    rw [hf2] at hf
    have hx : some x.2 = some ed := hf
    injection hx with hx
    refine ⟨x.1, ?_⟩
    rw [← hx]
    have := List.mem_of_find?_eq_some hf2
    simpa using this

theorem transTableLookUp_bounded (t : TransTable) (h : Nat) (d e : Int)
    (ht : ttOK t) (hl : transTableLookUp t h d = some e) :
    -(INF - 1) ≤ e ∧ e ≤ INF - 1 := by
  unfold transTableLookUp at hl
  cases hf : ttFind t h with
  | none =>
    rw [hf] at hl
    exact absurd (show (none : Option Int) = some e from hl) (by simp)
  | some ed =>
    rw [hf] at hl
    have hl2 : (if ed.2 ≥ d then (some ed.1 : Option Int) else none) = some e :=
      hl
    by_cases hd : ed.2 ≥ d
    · rw [if_pos hd] at hl2
      injection hl2 with hl2
      obtain ⟨k, hk⟩ := ttFind_mem t h ed hf
      have := ht (k, ed) hk
      simp only [] at this
      omega
    · rw [if_neg hd] at hl2
      exact absurd hl2 (by simp)

theorem mem_ttStore (t : TransTable) (h : Nat) (e d : Int)
    (x : Nat × Int × Int) (hx : x ∈ ttStore t h e d) :
    x = (h, e, d) ∨ x ∈ t := by
  unfold ttStore at hx
  by_cases hany : t.any (fun y => y.1 == h)
  · rw [if_pos hany] at hx
    obtain ⟨y, hy, hxy⟩ := List.mem_map.mp hx
    by_cases hyh : (y.1 == h) = true
    · rw [if_pos hyh] at hxy
      exact Or.inl hxy.symm
    · rw [if_neg (by simp [Bool.not_eq_true] at hyh ⊢; simp [hyh])] at hxy
      exact Or.inr (hxy ▸ hy)
  · rw [if_neg hany] at hx
    exact List.mem_cons.mp hx

theorem ttOK_ttStore (t : TransTable) (h : Nat) (e d : Int) (ht : ttOK t)
    (he1 : -(INF - 1) ≤ e) (he2 : e ≤ INF - 1) : ttOK (ttStore t h e d) := by
  intro x hx
  rcases mem_ttStore t h e d x hx with hx | hx
  · rw [hx]; exact ⟨he1, he2⟩
  · exact ht x hx

theorem ttProbe1_bounded (O : Oracle B M) (b : B) (depth α β : Int)
    (st : SearchState1 M) (hst : stOK st) (e : Int)
    (hp : ttProbe1 O b depth α β st = some e) :
    -(INF - 1) ≤ e ∧ e ≤ INF - 1 := by
  unfold ttProbe1 at hp
  by_cases hw : O.sideWhite b = true
  · rw [if_pos hw] at hp
    cases hl : transTableLookUp st.lower (O.hash b) depth with
    | none =>
      rw [hl] at hp
      exact absurd (show (none : Option Int) = some e from hp) (by simp)
    | some e2 =>
      rw [hl] at hp
      have hp2 : (if e2 ≥ β then (some e2 : Option Int) else none) = some e :=
        hp
      by_cases hb2 : e2 ≥ β
      · rw [if_pos hb2] at hp2
        injection hp2 with hp2
        exact hp2 ▸ transTableLookUp_bounded _ _ _ _ hst.1 hl
      · rw [if_neg hb2] at hp2
        exact absurd hp2 (by simp)
  · rw [if_neg hw] at hp
    cases hl : transTableLookUp st.upper (O.hash b) depth with
    | none =>
      rw [hl] at hp
      exact absurd (show (none : Option Int) = some e from hp) (by simp)
    | some e2 =>
      rw [hl] at hp
      have hp2 : (if e2 ≤ α then (some e2 : Option Int) else none) = some e :=
        hp
      by_cases hb2 : e2 ≤ α
      · rw [if_pos hb2] at hp2
        injection hp2 with hp2
        exact hp2 ▸ transTableLookUp_bounded _ _ _ _ hst.2 hl
      · rw [if_neg hb2] at hp2
        exact absurd hp2 (by simp)

theorem depthReduction_bounds (O : Oracle B M)
    (hlmr : ∀ (d : Int) (i : Nat), 1 ≤ O.lmrR d i ∧ O.lmrR d i ≤ 8)
    (b : B) (m : M) (i : Nat) (depth : Int) :
    depth - 8 ≤ depthReduction O b m i depth ∧
    depthReduction O b m i depth ≤ depth - 1 := by
  unfold depthReduction
  have := hlmr depth i
  split
  · omega
  · split
    · omega
    · omega

/-- One iteration of the move loop keeps its value inside the `±(INF−1)`
window and preserves the table invariant, assuming the recursive search
does. -/
theorem ab1Iter_bounds (O : Oracle B M)
    (hlmr : ∀ (d : Int) (i : Nat), 1 ≤ O.lmrR d i ∧ O.lmrR d i ≤ 8)
    (rec : B → Int → Int → Int → SearchState1 M → AB1Out B M)
    (hrec : ∀ (b : B) (d α β : Int) (st : SearchState1 M),
      -INF ≤ α → α < β → β ≤ INF → -10000 ≤ d → d ≤ 1000 → stOK st →
      -(INF - 1) ≤ (rec b d α β st).value ∧
        (rec b d α β st).value ≤ INF - 1 ∧ stOK (rec b d α β st).st)
    (white : Bool) (depth : Int) (m : M) (i : Nat) (b : B) (α β : Int)
    (st : SearchState1 M)
    (hd1 : 1 ≤ depth) (hd2 : depth ≤ 1000)
    (hα : -INF ≤ α) (hαβ : α < β) (hβ : β ≤ INF) (hst : stOK st) :
    -(INF - 1) ≤ (ab1Iter O rec white depth m i b α β st).value ∧
      (ab1Iter O rec white depth m i b α β st).value ≤ INF - 1 ∧
      stOK (ab1Iter O rec white depth m i b α β st).st := by
  simp only [ab1Iter]
  set nd := if O.inCheck (O.makeMove b m) = true then depth - 1
    else depthReduction O (O.makeMove b m) m i depth with hnd
  have hndb : depth - 8 ≤ nd ∧ nd ≤ depth - 1 := by
    rw [hnd]
    split
    · omega
    · exact depthReduction_bounds O hlmr _ _ _ _
  set r1 := rec (O.makeMove b m) nd α β st with hr1
  have hr1b := hrec (O.makeMove b m) nd α β st hα hαβ hβ (by omega) (by omega)
    hst
  rw [← hr1] at hr1b
  set r2 := rec (O.makeMove (O.unmakeMove r1.board m) m) (depth - 1) α β r1.st
    with hr2
  have hr2b := hrec (O.makeMove (O.unmakeMove r1.board m) m) (depth - 1) α β
    r1.st hα hαβ hβ (by omega) (by omega) hr1b.2.2
  rw [← hr2] at hr2b
  by_cases hre : (if white = true then r1.value > α else r1.value < β) ∧
      nd < depth - 1
  · rw [if_pos hre]
    exact ⟨hr2b.1, hr2b.2.1, hr2b.2.2⟩
  · rw [if_neg hre]
    exact ⟨hr1b.1, hr1b.2.1, hr1b.2.2⟩

/-- The white move loop: the tables stay in range, and as soon as either the
running best is in range or at least one move remains, the returned value is
in `[-(INF−1), INF−1]`. -/
theorem ab1LoopW_bounds (O : Oracle B M)
    (hlmr : ∀ (d : Int) (i : Nat), 1 ≤ O.lmrR d i ∧ O.lmrR d i ≤ 8)
    (rec : B → Int → Int → Int → SearchState1 M → AB1Out B M)
    (hrec : ∀ (b : B) (d α β : Int) (st : SearchState1 M),
      -INF ≤ α → α < β → β ≤ INF → -10000 ≤ d → d ≤ 1000 → stOK st →
      -(INF - 1) ≤ (rec b d α β st).value ∧
        (rec b d α β st).value ≤ INF - 1 ∧ stOK (rec b d α β st).st)
    (depth : Int) (hd1 : 1 ≤ depth) (hd2 : depth ≤ 1000) :
    ∀ (l : List (M × Int)) (i : Nat) (b : B) (α β bestEval : Int)
      (PV : List M) (st : SearchState1 M),
      -INF ≤ α → α < β → β ≤ INF → stOK st →
      (bestEval = -INF ∨ (-(INF - 1) ≤ bestEval ∧ bestEval ≤ INF - 1)) →
      stOK (ab1Loop O rec true depth l i b α β bestEval PV st).st ∧
      (((-(INF - 1) ≤ bestEval ∧ bestEval ≤ INF - 1) ∨ l ≠ []) →
        -(INF - 1) ≤ (ab1Loop O rec true depth l i b α β bestEval PV st).value ∧
        (ab1Loop O rec true depth l i b α β bestEval PV st).value ≤ INF - 1) := by
  intro l
  induction l with
  | nil =>
    intro i b α β bestEval PV st hα hαβ hβ hst hbe
    refine ⟨hst, fun hc => ?_⟩
    rcases hc with hc | hc
    · exact hc
    · exact absurd rfl hc
  | cons hd rest ih =>
    obtain ⟨m, p⟩ := hd
    intro i b α β bestEval PV st hα hαβ hβ hst hbe
    have hINF : INF = 100000 := rfl
    simp only [ab1Loop, eq_self_iff_true, if_true]
    set s := ab1Iter O rec true depth m i b α β st with hs
    have hsb : -(INF - 1) ≤ s.value ∧ s.value ≤ INF - 1 ∧ stOK s.st := by
      rw [hs]
      exact ab1Iter_bounds O hlmr rec hrec true depth m i b α β st hd1 hd2
        hα hαβ hβ hst
    by_cases hcut : β ≤ max α s.value
    · rw [if_pos hcut]
      refine ⟨?_, fun _ => ?_⟩
      · split <;> split <;> exact hsb.2.2
      · have h1 := hsb.1
        have h2 := hsb.2.1
        show -(INF - 1) ≤ max bestEval s.value ∧ max bestEval s.value ≤ INF - 1
        rcases hbe with hbe | hbe <;> omega
    · rw [if_neg hcut]
      have hbnd : -(INF - 1) ≤ max bestEval s.value ∧
          max bestEval s.value ≤ INF - 1 := by
        have h1 := hsb.1
        have h2 := hsb.2.1
        rcases hbe with hbe | hbe <;> omega
      have hih := ih (i + 1) s.board (max α s.value) β (max bestEval s.value)
        (if s.value > α then m :: s.pv else PV) s.st
        (by have := hsb.1; omega) (by omega) hβ hsb.2.2 (Or.inr hbnd)
      exact ⟨hih.1, fun _ => hih.2 (Or.inl hbnd)⟩

/-- The black move loop: mirror image of `ab1LoopW_bounds`. -/
theorem ab1LoopB_bounds (O : Oracle B M)
    (hlmr : ∀ (d : Int) (i : Nat), 1 ≤ O.lmrR d i ∧ O.lmrR d i ≤ 8)
    (rec : B → Int → Int → Int → SearchState1 M → AB1Out B M)
    (hrec : ∀ (b : B) (d α β : Int) (st : SearchState1 M),
      -INF ≤ α → α < β → β ≤ INF → -10000 ≤ d → d ≤ 1000 → stOK st →
      -(INF - 1) ≤ (rec b d α β st).value ∧
        (rec b d α β st).value ≤ INF - 1 ∧ stOK (rec b d α β st).st)
    (depth : Int) (hd1 : 1 ≤ depth) (hd2 : depth ≤ 1000) :
    ∀ (l : List (M × Int)) (i : Nat) (b : B) (α β bestEval : Int)
      (PV : List M) (st : SearchState1 M),
      -INF ≤ α → α < β → β ≤ INF → stOK st →
      (bestEval = INF ∨ (-(INF - 1) ≤ bestEval ∧ bestEval ≤ INF - 1)) →
      stOK (ab1Loop O rec false depth l i b α β bestEval PV st).st ∧
      (((-(INF - 1) ≤ bestEval ∧ bestEval ≤ INF - 1) ∨ l ≠ []) →
        -(INF - 1) ≤ (ab1Loop O rec false depth l i b α β bestEval PV st).value ∧
        (ab1Loop O rec false depth l i b α β bestEval PV st).value ≤ INF - 1) := by
  intro l
  induction l with
  | nil =>
    intro i b α β bestEval PV st hα hαβ hβ hst hbe
    refine ⟨hst, fun hc => ?_⟩
    rcases hc with hc | hc
    · exact hc
    · exact absurd rfl hc
  | cons hd rest ih =>
    obtain ⟨m, p⟩ := hd
    intro i b α β bestEval PV st hα hαβ hβ hst hbe
    have hINF : INF = 100000 := rfl
    simp only [ab1Loop, Bool.false_eq_true, if_false]
    set s := ab1Iter O rec false depth m i b α β st with hs
    have hsb : -(INF - 1) ≤ s.value ∧ s.value ≤ INF - 1 ∧ stOK s.st := by
      rw [hs]
      exact ab1Iter_bounds O hlmr rec hrec false depth m i b α β st hd1 hd2
        hα hαβ hβ hst
    by_cases hcut : min β s.value ≤ α
    · rw [if_pos hcut]
      refine ⟨?_, fun _ => ?_⟩
      · split <;> split <;> exact hsb.2.2
      · have h1 := hsb.1
        have h2 := hsb.2.1
        show -(INF - 1) ≤ min bestEval s.value ∧ min bestEval s.value ≤ INF - 1
        rcases hbe with hbe | hbe <;> omega
    · rw [if_neg hcut]
      have hbnd : -(INF - 1) ≤ min bestEval s.value ∧
          min bestEval s.value ≤ INF - 1 := by
        have h1 := hsb.1
        have h2 := hsb.2.1
        rcases hbe with hbe | hbe <;> omega
      have hih := ih (i + 1) s.board α (min β s.value) (min bestEval s.value)
        (if s.value < β then m :: s.pv else PV) s.st
        hα (by omega) (by have := hsb.2.1; omega) hsb.2.2 (Or.inr hbnd)
      exact ⟨hih.1, fun _ => hih.2 (Or.inl hbnd)⟩

/-- The full move-loop phase: on a position with a legal move the returned
value is in range and the table store keeps the tables in range. -/
theorem ab1MoveLoop_bounds (O : Oracle B M) [DecidableEq M]
    (hlmr : ∀ (d : Int) (i : Nat), 1 ≤ O.lmrR d i ∧ O.lmrR d i ≤ 8)
    (rec : B → Int → Int → Int → SearchState1 M → AB1Out B M)
    (hrec : ∀ (b : B) (d α β : Int) (st : SearchState1 M),
      -INF ≤ α → α < β → β ≤ INF → -10000 ≤ d → d ≤ 1000 → stOK st →
      -(INF - 1) ≤ (rec b d α β st).value ∧
        (rec b d α β st).value ≤ INF - 1 ∧ stOK (rec b d α β st).st)
    (b : B) (depth α β : Int) (st : SearchState1 M) (white : Bool)
    (hd1 : 1 ≤ depth) (hd2 : depth ≤ 1000)
    (hα : -INF ≤ α) (hαβ : α < β) (hβ : β ≤ INF) (hst : stOK st)
    (hne : O.legalMoves b ≠ []) :
    -(INF - 1) ≤ (ab1MoveLoop O rec b depth α β st white).value ∧
      (ab1MoveLoop O rec b depth α β st white).value ≤ INF - 1 ∧
      stOK (ab1MoveLoop O rec b depth α β st white).st := by
  have hpne : (prioritizedMoves1 O b depth st).1 ≠ [] := by
    obtain ⟨m, hm⟩ := List.exists_mem_of_ne_nil _ hne
    obtain ⟨p, hp⟩ := (prioritizedMoves1_mem O b depth st m).mpr hm
    intro hnil
    rw [hnil] at hp
    exact absurd hp (List.not_mem_nil _)
  cases white with
  | true =>
    simp only [ab1MoveLoop, eq_self_iff_true, if_true]
    set pmr := prioritizedMoves1 O b depth st with hpmr
    set lr := ab1Loop O rec true depth pmr.1 0 pmr.2 α β (-INF) [] st with hlr
    have hl := ab1LoopW_bounds O hlmr rec hrec depth hd1 hd2 pmr.1 0 pmr.2
      α β (-INF) [] st hα hαβ hβ hst (Or.inl rfl)
    rw [← hlr] at hl
    have hv := hl.2 (Or.inr hpne)
    exact ⟨hv.1, hv.2, ttOK_ttStore _ _ _ _ hl.1.1 hv.1 hv.2, hl.1.2⟩
  | false =>
    simp only [ab1MoveLoop, Bool.false_eq_true, if_false]
    set pmr := prioritizedMoves1 O b depth st with hpmr
    set lr := ab1Loop O rec false depth pmr.1 0 pmr.2 α β INF [] st with hlr
    have hl := ab1LoopB_bounds O hlmr rec hrec depth hd1 hd2 pmr.1 0 pmr.2
      α β INF [] st hα hαβ hβ hst (Or.inl rfl)
    rw [← hlr] at hl
    have hv := hl.2 (Or.inr hpne)
    exact ⟨hv.1, hv.2, hl.1.1, ttOK_ttStore _ _ _ _ hl.1.2 hv.1 hv.2⟩

/-- The razoring phase: its early returns (`α` for white, `β` for black) are
forced into range by the quiescence bounds, and the fall-through inherits the
move-loop bounds. -/
theorem ab1Razor_bounds (O : Oracle B M) [DecidableEq M]
    (hev : ∀ b : B, -30000 ≤ O.evaluate b ∧ O.evaluate b ≤ 30000)
    (hmk : ∀ (b : B) (m : M), O.unmakeMove (O.makeMove b m) m = b)
    (hlmr : ∀ (d : Int) (i : Nat), 1 ≤ O.lmrR d i ∧ O.lmrR d i ≤ 8)
    (rec : B → Int → Int → Int → SearchState1 M → AB1Out B M)
    (hrec : ∀ (b : B) (d α β : Int) (st : SearchState1 M),
      -INF ≤ α → α < β → β ≤ INF → -10000 ≤ d → d ≤ 1000 → stOK st →
      -(INF - 1) ≤ (rec b d α β st).value ∧
        (rec b d α β st).value ≤ INF - 1 ∧ stOK (rec b d α β st).st)
    (b : B) (depth α β : Int) (qd : Nat) (st : SearchState1 M) (white : Bool)
    (hd1 : 1 ≤ depth) (hd2 : depth ≤ 1000)
    (hα : -INF ≤ α) (hαβ : α < β) (hβ : β ≤ INF) (hst : stOK st)
    (hne : O.legalMoves b ≠ []) :
    -(INF - 1) ≤ (ab1Razor O rec b depth α β qd st white).value ∧
      (ab1Razor O rec b depth α β qd st white).value ≤ INF - 1 ∧
      stOK (ab1Razor O rec b depth α β qd st white).st := by
  have hINF : INF = 100000 := rfl
  unfold ab1Razor
  by_cases hrz : depth ≤ 2 ∧ ¬ (O.inCheck b = true)
  · rw [if_pos hrz]
    have hq := quiescence1_bounds O hev qd b α β hαβ
    have hqb := quiescence1_board O hmk qd b α β
    by_cases hw1 : white = true ∧ (quiescence1 O qd b α β).1 + 350 < α
    · rw [if_pos hw1]
      show -(INF - 1) ≤ α ∧ α ≤ INF - 1 ∧ stOK st
      refine ⟨by omega, by omega, hst⟩
    · rw [if_neg hw1]
      by_cases hw2 : ¬ (white = true) ∧ (quiescence1 O qd b α β).1 - 350 > β
      · rw [if_pos hw2]
        show -(INF - 1) ≤ β ∧ β ≤ INF - 1 ∧ stOK st
        refine ⟨by omega, by omega, hst⟩
      · rw [if_neg hw2]
        rw [hqb]
        exact ab1MoveLoop_bounds O hlmr rec hrec b depth α β st white hd1 hd2
          hα hαβ hβ hst hne
  · rw [if_neg hrz]
    exact ab1MoveLoop_bounds O hlmr rec hrec b depth α β st white hd1 hd2
      hα hαβ hβ hst hne

/-- The post-probe body of `alphaBeta`: on a position with a legal move the
returned value is within `±(INF−1)` and the tables stay in range, through the
horizon-quiescence store, the null-move window search and the razor/move-loop
phases. -/
theorem ab1Main_bounds (O : Oracle B M) [DecidableEq M]
    (hev : ∀ b : B, -30000 ≤ O.evaluate b ∧ O.evaluate b ≤ 30000)
    (hmk : ∀ (b : B) (m : M), O.unmakeMove (O.makeMove b m) m = b)
    (hnl : ∀ b : B, O.unmakeNullMove (O.makeNullMove b) = b)
    (hlmr : ∀ (d : Int) (i : Nat), 1 ≤ O.lmrR d i ∧ O.lmrR d i ≤ 8)
    (rec : B → Int → Int → Int → SearchState1 M → AB1Out B M)
    (hrec : ∀ (b : B) (d α β : Int) (st : SearchState1 M),
      -INF ≤ α → α < β → β ≤ INF → -10000 ≤ d → d ≤ 1000 → stOK st →
      -(INF - 1) ≤ (rec b d α β st).value ∧
        (rec b d α β st).value ≤ INF - 1 ∧ stOK (rec b d α β st).st)
    (hrecb : ∀ (b : B) (d α β : Int) (st : SearchState1 M),
      (rec b d α β st).board = b)
    (b : B) (depth α β : Int) (qd : Nat) (st : SearchState1 M)
    (hd1 : -10000 ≤ depth) (hd2 : depth ≤ 1000)
    (hα : -INF ≤ α) (hαβ : α < β) (hβ : β ≤ INF) (hst : stOK st)
    (hne : O.legalMoves b ≠ []) :
    -(INF - 1) ≤ (ab1Main O rec b depth α β qd st).value ∧
      (ab1Main O rec b depth α β qd st).value ≤ INF - 1 ∧
      stOK (ab1Main O rec b depth α β qd st).st := by
  have hINF : INF = 100000 := rfl
  unfold ab1Main
  by_cases hd0 : depth ≤ 0
  · rw [if_pos hd0]
    have hq := quiescence1_bounds O hev qd b α β hαβ
    refine ⟨?_, ?_, ?_⟩
    · show -(INF - 1) ≤ (quiescence1 O qd b α β).1
      omega
    · show (quiescence1 O qd b α β).1 ≤ INF - 1
      omega
    · show stOK (if O.sideWhite b = true then
        { st with lower := ttStore st.lower (O.hash b) (quiescence1 O qd b α β).1 depth }
        else
        { st with upper := ttStore st.upper (O.hash b) (quiescence1 O qd b α β).1 depth })
      split
      · exact ⟨ttOK_ttStore _ _ _ _ hst.1 (by omega) (by omega), hst.2⟩
      · exact ⟨hst.1, ttOK_ttStore _ _ _ _ hst.2 (by omega) (by omega)⟩
  · rw [if_neg hd0]
    by_cases hn : ¬ (O.isEndGame b = true) ∧ depth ≥ 6 ∧
        ¬ (O.inCheck b = true)
    · rw [if_pos hn]
      have hn6 : depth ≥ 6 := hn.2.1
      have hrnb : -(INF - 1) ≤ (if O.sideWhite b = true then
            rec (O.makeNullMove b) (depth - 2) (β - 1) β st
            else rec (O.makeNullMove b) (depth - 2) α (α + 1) st).value ∧
          (if O.sideWhite b = true then
            rec (O.makeNullMove b) (depth - 2) (β - 1) β st
            else rec (O.makeNullMove b) (depth - 2) α (α + 1) st).value ≤
            INF - 1 ∧
          stOK (if O.sideWhite b = true then
            rec (O.makeNullMove b) (depth - 2) (β - 1) β st
            else rec (O.makeNullMove b) (depth - 2) α (α + 1) st).st := by
        split
        · exact hrec _ _ _ _ _ (by omega) (by omega) hβ (by omega) (by omega)
            hst
        · exact hrec _ _ _ _ _ hα (by omega) (by omega) (by omega) (by omega)
            hst
      have hrnbd : (if O.sideWhite b = true then
            rec (O.makeNullMove b) (depth - 2) (β - 1) β st
            else rec (O.makeNullMove b) (depth - 2) α (α + 1) st).board =
          O.makeNullMove b := by
        split
        · exact hrecb _ _ _ _ _
        · exact hrecb _ _ _ _ _
      simp only [hrnbd, hnl]
      generalize hgen : (if O.sideWhite b = true then
          rec (O.makeNullMove b) (depth - 2) (β - 1) β st
          else rec (O.makeNullMove b) (depth - 2) α (α + 1) st) = rn0
      rw [hgen] at hrnb
      split
      · rename_i v1 b1 st1 heq
        split at heq
        · simp only [Prod.mk.injEq, Option.some.injEq] at heq
          show -(INF - 1) ≤ v1 ∧ v1 ≤ INF - 1 ∧ stOK st1
          rw [← heq.1, ← heq.2.2]
          exact ⟨hrnb.1, hrnb.2.1, hrnb.2.2⟩
        · simp only [Prod.mk.injEq] at heq
          exact absurd heq.1 (by simp)
      · rename_i b1 st1 heq
        split at heq
        · simp only [Prod.mk.injEq] at heq
          exact absurd heq.1 (by simp)
        · simp only [Prod.mk.injEq, true_and] at heq
          rw [← heq.1, ← heq.2]
          exact ab1Razor_bounds O hev hmk hlmr rec hrec b depth α β qd rn0.st
            (O.sideWhite b) (by omega) hd2 hα hαβ hβ hrnb.2.2 hne
    · rw [if_neg hn]
      exact ab1Razor_bounds O hev hmk hlmr rec hrec b depth α β qd st
        (O.sideWhite b) (by omega) hd2 hα hαβ hβ hst hne

/-- `alphaBeta` keeps its returned value within `±(INF−1)` — strictly inside
the `±INF` sentinels — and both transposition tables in range, at every fuel,
provided the evaluator stays within `±30000`, make/unmake round-trip, the LMR
reduction is between 1 and 8, and every non-game-over position has a legal
move. -/
theorem alphaBeta1_bounds (O : Oracle B M) [DecidableEq M]
    (hev : ∀ b : B, -30000 ≤ O.evaluate b ∧ O.evaluate b ≤ 30000)
    (hmk : ∀ (b : B) (m : M), O.unmakeMove (O.makeMove b m) m = b)
    (hnl : ∀ b : B, O.unmakeNullMove (O.makeNullMove b) = b)
    (hlmr : ∀ (d : Int) (i : Nat), 1 ≤ O.lmrR d i ∧ O.lmrR d i ≤ 8)
    (hco : ∀ b : B, O.isGameOver b = .NONE → O.legalMoves b ≠ [])
    (qd : Nat) :
    ∀ (f : Nat) (b : B) (depth α β : Int) (st : SearchState1 M),
      -INF ≤ α → α < β → β ≤ INF → -10000 ≤ depth → depth ≤ 1000 → stOK st →
      -(INF - 1) ≤ (alphaBeta1 O f b depth α β qd st).value ∧
        (alphaBeta1 O f b depth α β qd st).value ≤ INF - 1 ∧
        stOK (alphaBeta1 O f b depth α β qd st).st
  | 0, b, depth, α, β, st, hα, hαβ, hβ, hd1, hd2, hst =>
    ⟨by show -(INF - 1) ≤ (0 : Int); decide,
     by show (0 : Int) ≤ INF - 1; decide, hst⟩
  | f + 1, b, depth, α, β, st, hα, hαβ, hβ, hd1, hd2, hst => by
    have hINF : INF = 100000 := rfl
    simp only [alphaBeta1]
    split
    · rename_i hgo
      split
      · rename_i e hp
        have hb := ttProbe1_bounded O b depth α β st hst e hp
        exact ⟨hb.1, hb.2, hst⟩
      · exact ab1Main_bounds O hev hmk hnl hlmr _
          (fun b2 d2 α2 β2 st2 hα2 hαβ2 hβ2 hd12 hd22 hst2 =>
            alphaBeta1_bounds O hev hmk hnl hlmr hco qd f b2 d2 α2 β2 st2
              hα2 hαβ2 hβ2 hd12 hd22 hst2)
          (fun b2 d2 α2 β2 st2 =>
            alphaBeta1_board O hmk hnl f b2 d2 α2 β2 qd st2)
          b depth α β qd st hd1 hd2 hα hαβ hβ hst (hco b hgo)
    · refine ⟨?_, ?_, hst⟩
      · show -(INF - 1) ≤ (if O.sideWhite b = true then
          -(INF / 2) + (1000 - depth) else INF / 2 - (1000 - depth))
        split <;> omega
      · show (if O.sideWhite b = true then
          -(INF / 2) + (1000 - depth) else INF / 2 - (1000 - depth)) ≤ INF - 1
        split <;> omega
    · exact ⟨by show -(INF - 1) ≤ (0 : Int); decide,
        by show (0 : Int) ≤ INF - 1; decide, hst⟩

/-! ## The `findBestMove` driver of `search.cpp` (lines 527–680)

`findBestMove` iterates `depth = baseDepth .. maxDepth` with `baseDepth = 4`.
Per depth it walks the root moves: each iteration copies the root board, makes
the move, searches `alphaBeta` at `depth − 1` (moves after index 6 at
`depth − 2`) with the full window `(−INF, INF)`, unmakes; when the score
improves the current best (`newBestFlag`) it re-searches at the full
`depth − 1`; it appends `(move, eval)` to `newMoves` and, when the (possibly
re-searched) score still improves, updates the current best move/score and the
PV.  After the loop the depth's best move/score become the global ones,
`newMoves` is sorted (descending for white, ascending for black) to serve as
the next depth's move list (recomputed by `prioritizedMoves` only at
`depth == baseDepth`), and the time limit is checked (the in-loop
`timeLimitExceeded` flag is never set to true, so its `continue` is dead and
is not modelled).  `Move bestMove = Move()` makes the default-constructed
null-move sentinel the result when the depth loop never updates it. -/

/-- Insert into a list sorted by ascending second component
(`std::sort` with `a.second < b.second`, `search.cpp:649`). -/
def insertAsc {M : Type} (x : M × Int) : List (M × Int) → List (M × Int)
  | [] => [x]
  | y :: ys => if x.2 < y.2 then x :: y :: ys else y :: insertAsc x ys

/-- Sort move–score pairs by ascending score. -/
def sortAsc {M : Type} : List (M × Int) → List (M × Int)
  | [] => []
  | x :: xs => insertAsc x (sortAsc xs)

theorem mem_insertAsc {M : Type} (x a : M × Int) :
    ∀ l : List (M × Int), a ∈ insertAsc x l ↔ a = x ∨ a ∈ l
  | [] => by simp [insertAsc]
  | y :: ys => by
    unfold insertAsc
    by_cases hxy : x.2 < y.2
    · rw [if_pos hxy]
      simp only [List.mem_cons]
    · rw [if_neg hxy]
      simp only [List.mem_cons, mem_insertAsc x a ys]
      tauto

theorem mem_sortAsc {M : Type} (a : M × Int) :
    ∀ l : List (M × Int), a ∈ sortAsc l ↔ a ∈ l
  | [] => Iff.rfl
  | x :: xs => by
    unfold sortAsc
    rw [mem_insertAsc, mem_sortAsc a xs, List.mem_cons]

/-- One iteration of the root-move loop of `findBestMove`
(`search.cpp:584–637`), sequential (single-thread) semantics: copy the root
board, make the move, search at `depth − 1` (`depth − 2` past move index 6)
with the full window, unmake; on `newBestFlag` re-search at the full
`depth − 1`; append `(move, eval)` to `newMoves`; when the (possibly
re-searched) score still improves the current best, promote the move, its
score and its PV.  Returns the updated
`(currentBestMove, currentBestEval, PV, newMoves, state)`. -/
def fbmStep (O : Oracle B M)
    (rec : B → Int → Int → Int → SearchState1 M → AB1Out B M)
    (white : Bool) (depth : Int) (b : B) (m : M) (i : Nat) (curMove : M)
    (curEval : Int) (PV : List M) (newMoves : List (M × Int))
    (st : SearchState1 M) :
    M × Int × List M × List (M × Int) × SearchState1 M :=
  let nextDepth := if i ≤ 6 then depth - 1 else depth - 2
  let b1 := O.makeMove b m
  let r1 := rec b1 nextDepth (-INF) INF st
  let b2 := O.unmakeMove r1.board m
  let newBestFlag := if white then r1.value > curEval else r1.value < curEval
  let r2 :=
    if newBestFlag then
      let r := rec (O.makeMove b2 m) (depth - 1) (-INF) INF r1.st
      (⟨r.value, r.pv, O.unmakeMove r.board m, r.st⟩ : AB1Out B M)
    else r1
  let newMoves1 := newMoves ++ [(m, r2.value)]
  let upd := if (if white then r2.value > curEval else r2.value < curEval)
    then (m, r2.value, m :: r2.pv) else (curMove, curEval, PV)
  (upd.1, upd.2.1, upd.2.2, newMoves1, r2.st)

/-- The root-move loop of `findBestMove`: `fbmStep` per move (the dead
`timeLimitExceeded` skip is not modelled — the flag is never set). -/
def fbmRootLoop (O : Oracle B M)
    (rec : B → Int → Int → Int → SearchState1 M → AB1Out B M)
    (white : Bool) (depth : Int) (b : B) :
    List (M × Int) → Nat → M → Int → List M → List (M × Int) →
      SearchState1 M → M × Int × List M × List (M × Int) × SearchState1 M
  | [], _, curMove, curEval, PV, newMoves, st =>
      (curMove, curEval, PV, newMoves, st)
  | (m, _) :: rest, i, curMove, curEval, PV, newMoves, st =>
    let s := fbmStep O rec white depth b m i curMove curEval PV newMoves st
    fbmRootLoop O rec white depth b rest (i + 1) s.1 s.2.1 s.2.2.1 s.2.2.2.1
      s.2.2.2.2

/-- The iterative-deepening loop of `findBestMove` (`search.cpp:567–677`),
with the remaining iteration count as fuel (`findBestMove1` supplies
`(maxDepth − 3).toNat`, one unit per depth `4 .. maxDepth`).  Recomputes the
root move list by `prioritizedMoves` at `depth == 4`, runs the root loop from
the null-move sentinel and `∓INF`, promotes the depth's results to the global
best, sorts `newMoves` for the next depth, and stops on `timeUp` — after the
global best was updated, so a timeout still returns this depth's move. -/
def fbmDepthLoop (O : Oracle B M) [DecidableEq M] (qd : Nat) (maxDepth : Int) :
    Nat → Int → B → M → Int → List (M × Int) → SearchState1 M → M
  | 0, _, _, bestMove, _, _, _ => bestMove
  | fuel + 1, depth, b, bestMove, _bestEval, moves, st =>
    if depth > maxDepth then bestMove
    else
      let white := O.sideWhite b
      let mvp := if depth = 4 then prioritizedMoves1 O b depth st
        else (moves, b)
      let r := fbmRootLoop O
        (fun b2 d2 α2 β2 st2 => alphaBeta1 O (depth.toNat + 1) b2 d2 α2 β2 qd st2)
        white depth mvp.2 mvp.1 0 O.nullMove (if white then -INF else INF)
        [] [] st
      let newMovesSorted := if white then sortDesc r.2.2.2.1
        else sortAsc r.2.2.2.1
      if O.timeUp depth then r.1
      else fbmDepthLoop O qd maxDepth fuel (depth + 1) b r.1 r.2.1
        newMovesSorted r.2.2.2.2

/-- `findBestMove` (`search.cpp:527`): optionally reset the history tables,
clear a transposition table that outgrew `tableMaxSize = 5000000000`, then run
the depth loop from `baseDepth = 4` with the null-move sentinel as the initial
best move. -/
def findBestMove1 (O : Oracle B M) [DecidableEq M] (b : B) (maxDepth : Int)
    (qd : Nat) (resetHistory : Bool) (st : SearchState1 M) : M :=
  let st0 := if resetHistory then
    { st with whiteHist := fun _ _ => 0, blackHist := fun _ _ => 0 } else st
  let st1 : SearchState1 M :=
    { st0 with
        lower := if st0.lower.length > 5000000000 then [] else st0.lower,
        upper := if st0.upper.length > 5000000000 then [] else st0.upper }
  fbmDepthLoop O qd maxDepth ((maxDepth - 3).toNat) 4 b O.nullMove
    (if O.sideWhite b then -INF else INF) [] st1


/-- One root iteration promotes either the iterated move or keeps the current
best. -/
theorem fbmStep_best (O : Oracle B M)
    (rec : B → Int → Int → Int → SearchState1 M → AB1Out B M)
    (white : Bool) (depth : Int) (b : B) (m : M) (i : Nat) (curMove : M)
    (curEval : Int) (PV : List M) (newMoves : List (M × Int))
    (st : SearchState1 M) :
    (fbmStep O rec white depth b m i curMove curEval PV newMoves st).1 = m ∨
      (fbmStep O rec white depth b m i curMove curEval PV newMoves st).1 =
        curMove := by
  simp only [fbmStep]
  repeat' split
  all_goals first
  | exact Or.inl rfl
  | exact Or.inr rfl

/-- One root iteration appends exactly the iterated move to `newMoves`. -/
theorem fbmStep_newMoves (O : Oracle B M)
    (rec : B → Int → Int → Int → SearchState1 M → AB1Out B M)
    (white : Bool) (depth : Int) (b : B) (m : M) (i : Nat) (curMove : M)
    (curEval : Int) (PV : List M) (newMoves : List (M × Int))
    (st : SearchState1 M) :
    ((fbmStep O rec white depth b m i curMove curEval PV newMoves
        st).2.2.2.1).map Prod.fst = newMoves.map Prod.fst ++ [m] := by
  simp only [fbmStep]
  repeat' split
  all_goals simp

/-- One root iteration preserves the table invariant, assuming the recursive
search does. -/
theorem fbmStep_stOK (O : Oracle B M)
    (rec : B → Int → Int → Int → SearchState1 M → AB1Out B M)
    (hrec : ∀ (b : B) (d : Int) (st : SearchState1 M),
      -10000 ≤ d → d ≤ 1000 → stOK st →
      -(INF - 1) ≤ (rec b d (-INF) INF st).value ∧
        (rec b d (-INF) INF st).value ≤ INF - 1 ∧
        stOK (rec b d (-INF) INF st).st)
    (white : Bool) (depth : Int) (b : B) (m : M) (i : Nat) (curMove : M)
    (curEval : Int) (PV : List M) (newMoves : List (M × Int))
    (st : SearchState1 M) (hd1 : 4 ≤ depth) (hd2 : depth ≤ 1000)
    (hst : stOK st) :
    stOK (fbmStep O rec white depth b m i curMove curEval PV newMoves
      st).2.2.2.2 := by
  simp only [fbmStep]
  have hdn : -10000 ≤ (if i ≤ 6 then depth - 1 else depth - 2) ∧
      (if i ≤ 6 then depth - 1 else depth - 2) ≤ 1000 := by
    constructor <;> split <;> omega
  set r1 := rec (O.makeMove b m) (if i ≤ 6 then depth - 1 else depth - 2)
    (-INF) INF st with hr1
  have h1 := hrec (O.makeMove b m) _ st hdn.1 hdn.2 hst
  rw [← hr1] at h1
  have h2 : stOK (if (if white = true then r1.value > curEval
      else r1.value < curEval) then
      (⟨(rec (O.makeMove (O.unmakeMove r1.board m) m) (depth - 1) (-INF) INF
          r1.st).value,
        (rec (O.makeMove (O.unmakeMove r1.board m) m) (depth - 1) (-INF) INF
          r1.st).pv,
        O.unmakeMove (rec (O.makeMove (O.unmakeMove r1.board m) m)
          (depth - 1) (-INF) INF r1.st).board m,
        (rec (O.makeMove (O.unmakeMove r1.board m) m) (depth - 1) (-INF) INF
          r1.st).st⟩ : AB1Out B M)
    else r1).st := by
    split <;> split <;>
      first
      | exact (hrec _ (depth - 1) r1.st (by omega) (by omega) h1.2.2).2.2
      | exact h1.2.2
  exact h2

/-- One root iteration's promoted score stays within `±(INF−1)`. -/
theorem fbmStep_eval (O : Oracle B M)
    (rec : B → Int → Int → Int → SearchState1 M → AB1Out B M)
    (hrec : ∀ (b : B) (d : Int) (st : SearchState1 M),
      -10000 ≤ d → d ≤ 1000 → stOK st →
      -(INF - 1) ≤ (rec b d (-INF) INF st).value ∧
        (rec b d (-INF) INF st).value ≤ INF - 1 ∧
        stOK (rec b d (-INF) INF st).st)
    (white : Bool) (depth : Int) (b : B) (m : M) (i : Nat) (curMove : M)
    (curEval : Int) (PV : List M) (newMoves : List (M × Int))
    (st : SearchState1 M) (hd1 : 4 ≤ depth) (hd2 : depth ≤ 1000)
    (hst : stOK st)
    (hce : curEval = if white then -INF else INF) :
    (fbmStep O rec white depth b m i curMove curEval PV newMoves st).1 =
      m := by
  have hINF : INF = 100000 := rfl
  simp only [fbmStep]
  have hdn : -10000 ≤ (if i ≤ 6 then depth - 1 else depth - 2) ∧
      (if i ≤ 6 then depth - 1 else depth - 2) ≤ 1000 := by
    constructor <;> split <;> omega
  set r1 := rec (O.makeMove b m) (if i ≤ 6 then depth - 1 else depth - 2)
    (-INF) INF st with hr1
  have h1 := hrec (O.makeMove b m) _ st hdn.1 hdn.2 hst
  rw [← hr1] at h1
  set r2 := if (if white = true then r1.value > curEval
      else r1.value < curEval) then
      (⟨(rec (O.makeMove (O.unmakeMove r1.board m) m) (depth - 1) (-INF) INF
          r1.st).value,
        (rec (O.makeMove (O.unmakeMove r1.board m) m) (depth - 1) (-INF) INF
          r1.st).pv,
        O.unmakeMove (rec (O.makeMove (O.unmakeMove r1.board m) m)
          (depth - 1) (-INF) INF r1.st).board m,
        (rec (O.makeMove (O.unmakeMove r1.board m) m) (depth - 1) (-INF) INF
          r1.st).st⟩ : AB1Out B M)
    else r1 with hr2
  have h2 : -(INF - 1) ≤ r2.value ∧ r2.value ≤ INF - 1 := by
    rw [hr2]
    split <;> split <;>
      first
      | exact ⟨(hrec (O.makeMove (O.unmakeMove r1.board m) m) (depth - 1)
            r1.st (by omega) (by omega) h1.2.2).1,
          (hrec (O.makeMove (O.unmakeMove r1.board m) m) (depth - 1) r1.st
            (by omega) (by omega) h1.2.2).2.1⟩
      | exact ⟨h1.1, h1.2.1⟩
  have hcond : (if white = true then r2.value > curEval
      else r2.value < curEval) := by
    subst hce
    cases white
    · show r2.value < INF
      omega
    · show r2.value > -INF
      omega
  rw [if_pos hcond]

/-- The best move the root loop returns is either the incoming current best
or the first component of one of the listed moves. -/
theorem fbmRootLoop_best_mem (O : Oracle B M)
    (rec : B → Int → Int → Int → SearchState1 M → AB1Out B M)
    (white : Bool) (depth : Int) (b : B) :
    ∀ (l : List (M × Int)) (i : Nat) (curMove : M) (curEval : Int)
      (PV : List M) (newMoves : List (M × Int)) (st : SearchState1 M),
      (fbmRootLoop O rec white depth b l i curMove curEval PV newMoves st).1 =
          curMove ∨
        ∃ p ∈ l,
          (fbmRootLoop O rec white depth b l i curMove curEval PV newMoves
            st).1 = p.1 := by
  intro l
  induction l with
  | nil => intro i curMove curEval PV newMoves st; exact Or.inl rfl
  | cons hd rest ih =>
    obtain ⟨m, pr⟩ := hd
    intro i curMove curEval PV newMoves st
    simp only [fbmRootLoop]
    set s := fbmStep O rec white depth b m i curMove curEval PV newMoves st
      with hs
    have hb : s.1 = m ∨ s.1 = curMove := by
      rw [hs]
      exact fbmStep_best O rec white depth b m i curMove curEval PV newMoves
        st
    rcases ih (i + 1) s.1 s.2.1 s.2.2.1 s.2.2.2.1 s.2.2.2.2 with h | ⟨p, hp, h⟩
    · rcases hb with hb | hb
      · exact Or.inr ⟨(m, pr), List.mem_cons_self _ _, h.trans hb⟩
      · exact Or.inl (h.trans hb)
    · exact Or.inr ⟨p, List.mem_cons_of_mem _ hp, h⟩

/-- The root loop extends `newMoves` by exactly the moves of its list, in
order. -/
theorem fbmRootLoop_newMoves (O : Oracle B M)
    (rec : B → Int → Int → Int → SearchState1 M → AB1Out B M)
    (white : Bool) (depth : Int) (b : B) :
    ∀ (l : List (M × Int)) (i : Nat) (curMove : M) (curEval : Int)
      (PV : List M) (newMoves : List (M × Int)) (st : SearchState1 M),
      ((fbmRootLoop O rec white depth b l i curMove curEval PV newMoves
          st).2.2.2.1).map Prod.fst =
        newMoves.map Prod.fst ++ l.map Prod.fst := by
  intro l
  induction l with
  | nil => intro i curMove curEval PV newMoves st; simp [fbmRootLoop]
  | cons hd rest ih =>
    obtain ⟨m, pr⟩ := hd
    intro i curMove curEval PV newMoves st
    simp only [fbmRootLoop]
    set s := fbmStep O rec white depth b m i curMove curEval PV newMoves st
      with hs
    have hn : (s.2.2.2.1).map Prod.fst = newMoves.map Prod.fst ++ [m] := by
      rw [hs]
      exact fbmStep_newMoves O rec white depth b m i curMove curEval PV
        newMoves st
    rw [ih (i + 1) s.1 s.2.1 s.2.2.1 s.2.2.2.1 s.2.2.2.2, hn]
    simp

/-- The root loop preserves the table invariant, assuming the recursive
search does. -/
theorem fbmRootLoop_stOK (O : Oracle B M)
    (rec : B → Int → Int → Int → SearchState1 M → AB1Out B M)
    (hrec : ∀ (b : B) (d : Int) (st : SearchState1 M),
      -10000 ≤ d → d ≤ 1000 → stOK st →
      -(INF - 1) ≤ (rec b d (-INF) INF st).value ∧
        (rec b d (-INF) INF st).value ≤ INF - 1 ∧
        stOK (rec b d (-INF) INF st).st)
    (white : Bool) (depth : Int) (b : B)
    (hd1 : 4 ≤ depth) (hd2 : depth ≤ 1000) :
    ∀ (l : List (M × Int)) (i : Nat) (curMove : M) (curEval : Int)
      (PV : List M) (newMoves : List (M × Int)) (st : SearchState1 M),
      stOK st →
      stOK (fbmRootLoop O rec white depth b l i curMove curEval PV newMoves
        st).2.2.2.2 := by
  intro l
  induction l with
  | nil => intro i curMove curEval PV newMoves st hst; exact hst
  | cons hd rest ih =>
    obtain ⟨m, pr⟩ := hd
    intro i curMove curEval PV newMoves st hst
    simp only [fbmRootLoop]
    set s := fbmStep O rec white depth b m i curMove curEval PV newMoves st
      with hs
    have h2 : stOK s.2.2.2.2 := by
      rw [hs]
      exact fbmStep_stOK O rec hrec white depth b m i curMove curEval PV
        newMoves st hd1 hd2 hst
    exact ih (i + 1) s.1 s.2.1 s.2.2.1 s.2.2.2.1 s.2.2.2.2 h2

/-- On a nonempty root move list starting from the `∓INF` initial score, the
root loop's best move comes from the list: the very first iteration's score
beats `∓INF` (search values are strictly inside `±INF`), so the current best
is promoted at least once. -/
theorem fbmRootLoop_fires (O : Oracle B M)
    (rec : B → Int → Int → Int → SearchState1 M → AB1Out B M)
    (hrec : ∀ (b : B) (d : Int) (st : SearchState1 M),
      -10000 ≤ d → d ≤ 1000 → stOK st →
      -(INF - 1) ≤ (rec b d (-INF) INF st).value ∧
        (rec b d (-INF) INF st).value ≤ INF - 1 ∧
        stOK (rec b d (-INF) INF st).st)
    (white : Bool) (depth : Int) (b : B)
    (hd1 : 4 ≤ depth) (hd2 : depth ≤ 1000)
    (m : M) (pr : Int) (rest : List (M × Int)) (i : Nat) (curMove : M)
    (curEval : Int) (PV : List M) (newMoves : List (M × Int))
    (st : SearchState1 M) (hst : stOK st)
    (hce : curEval = if white then -INF else INF) :
    ∃ p ∈ (m, pr) :: rest,
      (fbmRootLoop O rec white depth b ((m, pr) :: rest) i curMove curEval PV
        newMoves st).1 = p.1 := by
  simp only [fbmRootLoop]
  set s := fbmStep O rec white depth b m i curMove curEval PV newMoves st
    with hs
  have h1 : s.1 = m := by
    rw [hs]
    exact fbmStep_eval O rec hrec white depth b m i curMove curEval PV
      newMoves st hd1 hd2 hst hce
  rcases fbmRootLoop_best_mem O rec white depth b rest (i + 1) s.1 s.2.1
      s.2.2.1 s.2.2.2.1 s.2.2.2.2 with h | ⟨p, hp, h⟩
  · exact ⟨(m, pr), List.mem_cons_self _ _, h.trans h1⟩
  · exact ⟨p, List.mem_cons_of_mem _ hp, h⟩

/-- The iterative-deepening loop returns a legal move whenever it is entered
at `depth = 4 ≤ maxDepth` with fuel for at least one iteration, or whenever
its incoming global best move is already legal and its move list is a
nonempty list of legal moves. -/
theorem fbmDepthLoop_legal (O : Oracle B M) [DecidableEq M]
    (hev : ∀ b : B, -30000 ≤ O.evaluate b ∧ O.evaluate b ≤ 30000)
    (hmk : ∀ (b : B) (m : M), O.unmakeMove (O.makeMove b m) m = b)
    (hnl : ∀ b : B, O.unmakeNullMove (O.makeNullMove b) = b)
    (hlmr : ∀ (d : Int) (i : Nat), 1 ≤ O.lmrR d i ∧ O.lmrR d i ≤ 8)
    (hco : ∀ b : B, O.isGameOver b = .NONE → O.legalMoves b ≠ [])
    (qd : Nat) (maxDepth : Int) (hmd : maxDepth ≤ 1000) (b : B)
    (hne : O.legalMoves b ≠ []) :
    ∀ (fuel : Nat) (depth : Int) (bestMove : M) (bestEval : Int)
      (moves : List (M × Int)) (st : SearchState1 M),
      4 ≤ depth → stOK st →
      ((depth = 4 ∧ depth ≤ maxDepth ∧ 1 ≤ fuel) ∨
        (bestMove ∈ O.legalMoves b ∧ (∀ p ∈ moves, p.1 ∈ O.legalMoves b) ∧
          moves ≠ [])) →
      fbmDepthLoop O qd maxDepth fuel depth b bestMove bestEval moves st ∈
        O.legalMoves b := by
  intro fuel
  induction fuel with
  | zero =>
    intro depth bestMove bestEval moves st hd4 hst hinv
    rcases hinv with ⟨_, _, hf⟩ | ⟨hbm, _, _⟩
    · omega
    · exact hbm
  | succ fuel ih =>
    intro depth bestMove bestEval moves st hd4 hst hinv
    simp only [fbmDepthLoop]
    by_cases hgt : depth > maxDepth
    · rw [if_pos hgt]
      rcases hinv with ⟨_, hle, _⟩ | ⟨hbm, _, _⟩
      · omega
      · exact hbm
    · rw [if_neg hgt]
      set mvp := if depth = 4 then prioritizedMoves1 O b depth st
        else (moves, b) with hmvp
      have hmv1 : ∀ p ∈ mvp.1, p.1 ∈ O.legalMoves b := by
        rw [hmvp]
        split
        · intro p hp
          exact (prioritizedMoves1_mem O b depth st p.1).mp ⟨p.2, hp⟩
        · rename_i hd4n
          rcases hinv with ⟨h4, _, _⟩ | ⟨_, hml, _⟩
          · exact absurd h4 hd4n
          · exact hml
      have hmvne : mvp.1 ≠ [] := by
        rw [hmvp]
        split
        · obtain ⟨m0, hm0⟩ := List.exists_mem_of_ne_nil _ hne
          obtain ⟨p0, hp0⟩ := (prioritizedMoves1_mem O b depth st m0).mpr hm0
          intro hnil
          rw [hnil] at hp0
          exact absurd hp0 (List.not_mem_nil _)
        · rename_i hd4n
          rcases hinv with ⟨h4, _, _⟩ | ⟨_, _, hmne⟩
          · exact absurd h4 hd4n
          · exact hmne
      have hmb : mvp.2 = b := by
        rw [hmvp]
        split
        · exact prioritizedMoves1_board O hmk b depth st
        · rfl
      have hrec2 : ∀ (b2 : B) (d2 : Int) (st2 : SearchState1 M),
          -10000 ≤ d2 → d2 ≤ 1000 → stOK st2 →
          -(INF - 1) ≤ (alphaBeta1 O (depth.toNat + 1) b2 d2 (-INF) INF qd
              st2).value ∧
            (alphaBeta1 O (depth.toNat + 1) b2 d2 (-INF) INF qd st2).value ≤
              INF - 1 ∧
            stOK (alphaBeta1 O (depth.toNat + 1) b2 d2 (-INF) INF qd
              st2).st :=
        fun b2 d2 st2 h1 h2 h3 =>
          alphaBeta1_bounds O hev hmk hnl hlmr hco qd (depth.toNat + 1) b2 d2
            (-INF) INF st2 (le_refl _) (by decide) (le_refl _) h1 h2 h3
      set r := fbmRootLoop O
        (fun b2 d2 α2 β2 st2 =>
          alphaBeta1 O (depth.toNat + 1) b2 d2 α2 β2 qd st2)
        (O.sideWhite b) depth mvp.2 mvp.1 0 O.nullMove
        (if O.sideWhite b = true then -INF else INF) [] [] st with hr
      have hr1leg : r.1 ∈ O.legalMoves b := by
        rw [hr]
        cases hc : mvp.1 with
        | nil => exact absurd hc hmvne
        | cons hd0 tl =>
          obtain ⟨m0, pr0⟩ := hd0
          obtain ⟨p, hp, hpe⟩ := fbmRootLoop_fires O
            (fun b2 d2 α2 β2 st2 =>
              alphaBeta1 O (depth.toNat + 1) b2 d2 α2 β2 qd st2)
            hrec2 (O.sideWhite b) depth mvp.2 hd4 (by omega) m0 pr0 tl 0
            O.nullMove (if O.sideWhite b = true then -INF else INF) [] [] st
            hst rfl
          rw [hpe]
          exact hmv1 p (hc ▸ hp)
      have hnm : (r.2.2.2.1).map Prod.fst = mvp.1.map Prod.fst := by
        rw [hr]
        exact fbmRootLoop_newMoves O _ (O.sideWhite b) depth mvp.2 mvp.1 0
          O.nullMove (if O.sideWhite b = true then -INF else INF) [] [] st
      have hstr : stOK r.2.2.2.2 := by
        rw [hr]
        exact fbmRootLoop_stOK O _ hrec2 (O.sideWhite b) depth mvp.2 hd4
          (by omega) mvp.1 0 O.nullMove
          (if O.sideWhite b = true then -INF else INF) [] [] st hst
      by_cases ht : O.timeUp depth = true
      · rw [if_pos ht]
        exact hr1leg
      · rw [if_neg ht]
        refine ih (depth + 1) r.1 r.2.1 _ r.2.2.2.2 (by omega) hstr
          (Or.inr ⟨hr1leg, ?_, ?_⟩)
        · intro p hp
          split at hp
          · rw [mem_sortDesc] at hp
            have hmem : p.1 ∈ (r.2.2.2.1).map Prod.fst :=
              List.mem_map_of_mem _ hp
            rw [hnm] at hmem
            obtain ⟨q, hq, hq2⟩ := List.mem_map.mp hmem
            rw [← hq2]
            exact hmv1 q hq
          · rw [mem_sortAsc] at hp
            have hmem : p.1 ∈ (r.2.2.2.1).map Prod.fst :=
              List.mem_map_of_mem _ hp
            rw [hnm] at hmem
            obtain ⟨q, hq, hq2⟩ := List.mem_map.mp hmem
            rw [← hq2]
            exact hmv1 q hq
        · have hnm2 : r.2.2.2.1 ≠ [] := by
            intro hnil
            rw [hnil] at hnm
            cases hc : mvp.1 with
            | nil => exact absurd hc hmvne
            | cons hd0 tl =>
              rw [hc] at hnm
              exact absurd hnm.symm (by simp)
          obtain ⟨q, hq⟩ := List.exists_mem_of_ne_nil _ hnm2
          split
          · intro hnil
            rw [← mem_sortDesc q] at hq
            rw [hnil] at hq
            exact absurd hq (List.not_mem_nil _)
          · intro hnil
            rw [← mem_sortAsc q] at hq
            rw [hnil] at hq
            exact absurd hq (List.not_mem_nil _)

/-- On a position with no legal moves the iterative-deepening loop never
updates the sentinel best move: the root move list is empty at every depth. -/
theorem fbmDepthLoop_sentinel (O : Oracle B M) [DecidableEq M]
    (qd : Nat) (maxDepth : Int) (b : B) (hleg : O.legalMoves b = []) :
    ∀ (fuel : Nat) (depth : Int) (bestEval : Int) (st : SearchState1 M),
      fbmDepthLoop O qd maxDepth fuel depth b O.nullMove bestEval [] st =
        O.nullMove := by
  intro fuel
  induction fuel with
  | zero => intro depth bestEval st; rfl
  | succ fuel ih =>
    intro depth bestEval st
    simp only [fbmDepthLoop]
    by_cases hgt : depth > maxDepth
    · rw [if_pos hgt]
    · rw [if_neg hgt]
      have hmv : (if depth = 4 then prioritizedMoves1 O b depth st
          else (([] : List (M × Int)), b)) = ([], b) := by
        split
        · simp [prioritizedMoves1, pm1Classify, hleg, sortDesc]
        · rfl
      rw [hmv]
      simp only [fbmRootLoop, sortDesc, sortAsc, ite_self]
      split
      · rfl
      · exact ih (depth + 1) _ st

/-- Clearing an oversized table (or keeping it) preserves the table
invariant. -/
theorem stOK_clear {M : Type} (st : SearchState1 M) (hst : stOK st)
    (c1 c2 : Prop) [Decidable c1] [Decidable c2] :
    stOK { st with lower := if c1 then [] else st.lower,
                   upper := if c2 then [] else st.upper } := by
  constructor
  · show ttOK (if c1 then [] else st.lower)
    split
    · intro e he
      exact absurd he (List.not_mem_nil _)
    · exact hst.1
  · show ttOK (if c2 then [] else st.upper)
    split
    · intro e he
      exact absurd he (List.not_mem_nil _)
    · exact hst.2

/-- Resetting the history tables preserves the table invariant. -/
theorem stOK_resetHist {M : Type} (st : SearchState1 M) (hst : stOK st)
    (rh : Bool) :
    stOK (if rh = true then
      { st with whiteHist := fun _ _ => 0, blackHist := fun _ _ => 0 }
      else st) := by
  split
  · exact hst
  · exact hst

/-- The empty search state satisfies the table invariant. -/
theorem emptyState1_stOK : stOK emptyState1 := by
  constructor <;> intro e he <;> exact absurd he (List.not_mem_nil _)

/-- A toy oracle with one legal move (`0`) in every position, the game never
over: the scenario of the amended claim's "at least one legal move". -/
def legalOracle : Oracle Nat Nat :=
  { toyOracle with legalMoves := fun _ => [0] }

/-- C1: corrected.  `findBestMove` starts its iterative-deepening loop at
`baseDepth = 4`, so for `max_depth < 4` the loop body never runs and the
default-constructed null-move sentinel is returned even when the position has
legal moves — the claim's "for every position with at least one legal move"
fails for `max_depth ≤ 3`.  Amended: when the position has a legal move and
`4 ≤ max_depth ≤ 1000`, the returned move is legal in the position (under the
library contract: evaluation within `±30000`, make/unmake round-trips, LMR
reduction in `[1, 8]`, and a position that is not game-over has a legal
move); and when the position has no legal moves the sentinel is returned for
every `max_depth`. -/
theorem findBestMove_returns_legal_or_sentinel (O : Oracle B M)
    [DecidableEq M]
    (hev : ∀ b : B, -30000 ≤ O.evaluate b ∧ O.evaluate b ≤ 30000)
    (hmk : ∀ (b : B) (m : M), O.unmakeMove (O.makeMove b m) m = b)
    (hnl : ∀ b : B, O.unmakeNullMove (O.makeNullMove b) = b)
    (hlmr : ∀ (d : Int) (i : Nat), 1 ≤ O.lmrR d i ∧ O.lmrR d i ≤ 8)
    (hco : ∀ b : B, O.isGameOver b = .NONE → O.legalMoves b ≠ [])
    (b : B) (maxDepth : Int) (qd : Nat) (rh : Bool) (st : SearchState1 M)
    (hst : stOK st) :
    (O.legalMoves b ≠ [] → 4 ≤ maxDepth → maxDepth ≤ 1000 →
      findBestMove1 O b maxDepth qd rh st ∈ O.legalMoves b) ∧
    (O.legalMoves b = [] →
      findBestMove1 O b maxDepth qd rh st = O.nullMove) := by
  constructor
  · intro hne h4 h1000
    simp only [findBestMove1]
    exact fbmDepthLoop_legal O hev hmk hnl hlmr hco qd maxDepth h1000 b hne
      ((maxDepth - 3).toNat) 4 O.nullMove _ [] _ (le_refl _)
      (stOK_clear _ (stOK_resetHist st hst rh) _ _)
      (Or.inl ⟨rfl, h4, by omega⟩)
  · intro hleg
    simp only [findBestMove1]
    exact fbmDepthLoop_sentinel O qd maxDepth b hleg _ 4 _ _

/-- C1 counterexample to the claim as stated: a position with a legal move on
which `findBestMove` with `max_depth = 3` returns the null-move sentinel
(`Move()`, here the oracle's `nullMove` 99), which is not legal — the depth
loop `for depth = 4 .. maxDepth` never runs. -/
theorem findBestMove_maxDepth3_returns_sentinel :
    legalOracle.legalMoves 0 ≠ [] ∧
    findBestMove1 legalOracle 0 3 10 false emptyState1 =
      legalOracle.nullMove ∧
    findBestMove1 legalOracle 0 3 10 false emptyState1 ∉
      legalOracle.legalMoves 0 := by
  refine ⟨by decide, rfl, by decide⟩

/-- C1 witness: the amended theorem applied to a one-legal-move oracle at
`max_depth = 4` (a legal move is returned) and to a no-legal-move (checkmate)
oracle (the sentinel is returned). -/
theorem findBestMove_returns_legal_or_sentinel_witness :
    findBestMove1 legalOracle 0 4 3 false emptyState1 ∈
      legalOracle.legalMoves 0 ∧
    findBestMove1 mateOracle 0 7 3 false emptyState1 =
      mateOracle.nullMove :=
  ⟨(findBestMove_returns_legal_or_sentinel legalOracle
      (fun _ => by show -30000 ≤ (500 : Int) ∧ (500 : Int) ≤ 30000; decide)
      (fun _ _ => rfl) (fun _ => rfl)
      (fun _ _ => by show (1 : Int) ≤ 1 ∧ (1 : Int) ≤ 8; decide)
      (fun _ _ => by show ([0] : List Nat) ≠ []; decide)
      0 4 3 false emptyState1 emptyState1_stOK).1
      (by show ([0] : List Nat) ≠ []; decide) (by decide) (by decide),
   (findBestMove_returns_legal_or_sentinel mateOracle
      (fun _ => by show -30000 ≤ (500 : Int) ∧ (500 : Int) ≤ 30000; decide)
      (fun _ _ => rfl) (fun _ => rfl)
      (fun _ _ => by show (1 : Int) ≤ 1 ∧ (1 : Int) ≤ 8; decide)
      (fun _ h => absurd h (by
        show ¬ (GameResultReason.CHECKMATE = GameResultReason.NONE)
        decide))
      0 7 3 false emptyState1 emptyState1_stOK).2 rfl⟩
